import Mathlib

/-!
Shallow embedding of the create-student-groups core (the grouping algorithm of
the repository's main script) together with proofs of its specification claims.

Modelling conventions:
* JavaScript 32-bit integer arithmetic is modelled on `Nat` with explicit
  reduction modulo `2 ^ 32`; bitwise operators act on the unsigned bit
  pattern, which agrees with the JS signed operations pattern-for-pattern.
* The PRNG draw `rng()` returns a float `o / 2^32` with `o < 2^32`; we keep
  the numerator `o`, so `Math.floor(rng() * (i + 1))` becomes
  `o * (i + 1) / 2^32` in exact integer arithmetic.
* `Math.random` (the unseeded mode) is modelled as an ambient stream of
  32-bit numerators `sys : Nat → Nat` consumed at increasing positions.
* JS arrays are `List`s; `push` appends at the tail, `pop` removes the tail.
* `Map` / plain-object tables keyed by strings are association lists in key
  insertion order.  (JS additionally reorders integer-like object keys; none
  of the verified properties depends on the iteration order of the queues.)
* Thrown `Error`s are `Except.error` with the thrown message.
* `Array.prototype.sort` with a consistent comparator is a stable sort; it is
  modelled by a stable insertion sort (`sortByLe`), which produces the same
  permutation as any stable sort for a total transitive comparator.
-/

namespace CSG

/-- Modulus of JavaScript 32-bit integer arithmetic, `2 ^ 32`. -/
def W32 : Nat := 4294967296

/-- A random source: the seeded `mulberry32` state, or the ambient
`Math.random` stream at a given position. -/
inductive Rng where
  | seeded (state : Nat)
  | system (draws : Nat → Nat) (pos : Nat)

/-- One draw.  For `seeded` this is the exact bit-level `mulberry32` step of
the source: advance the state by `0x6D2B79F5`, two rounds of
multiply/xor/shift mixing, returning the 32-bit numerator of the float. -/
def Rng.next : Rng → Nat × Rng
  | .seeded a =>
    let a2 := (a + 0x6D2B79F5) % W32
    let t1 := ((a2 ^^^ (a2 >>> 15)) * (1 ||| a2)) % W32
    let t2 := ((t1 + ((t1 ^^^ (t1 >>> 7)) * (61 ||| t1)) % W32) % W32) ^^^ t1
    ((t2 ^^^ (t2 >>> 14)) % W32, .seeded a2)
  | .system f k => (f k % W32, .system f (k + 1))

/-- Swap the elements at positions `i` and `j`
(`[arr[i], arr[j]] = [arr[j], arr[i]]`); out-of-range indices leave the
list unchanged (never hit by the shuffler). -/
def listSwap {α : Type} (l : List α) (i j : Nat) : List α :=
  match l[i]?, l[j]? with
  | some x, some y => (l.set i y).set j x
  | _, _ => l

/-- The Fisher-Yates loop of `shuffleInPlace`: index `i` counts down;
at `i ≥ 1` draw `o` and swap positions `i` and `o * (i + 1) / 2^32`. -/
def shuffleGo {α : Type} : List α → Rng → Nat → List α × Rng
  | l, rng, 0 => (l, rng)
  | l, rng, i + 1 =>
    let d := rng.next
    shuffleGo (listSwap l (i + 1) (d.1 * (i + 2) / W32)) d.2 i

/-- `shuffleInPlace(arr, rng)` on a whole list. -/
def shuffleList {α : Type} (l : List α) (rng : Rng) : List α × Rng :=
  shuffleGo l rng (l.length - 1)

/-- Shuffle every bucket of a keyed bucket list in order, threading the
random source through (`for (const p of keys) shuffleInPlace(bucket(p), rng)`). -/
def shuffleAll {α : Type} : Rng → List (String × List α) → List (String × List α) × Rng
  | rng, [] => ([], rng)
  | rng, e :: rest =>
    let pr := shuffleList e.2 rng
    let pr2 := shuffleAll pr.2 rest
    ((e.1, pr.1) :: pr2.1, pr2.2)

/-- `arr.pop()`: the last element and the remaining list, if any. -/
def popBack {α : Type} (l : List α) : Option (α × List α) :=
  match l.getLast? with
  | none => none
  | some x => some (x, l.dropLast)

/-- First-occurrence deduplication, the key order of a JS `Map`/`Set`
built by repeated insertion. -/
def dedupFirstGo {α : Type} [BEq α] : List α → List α → List α
  | _, [] => []
  | seen, p :: rest =>
    if seen.contains p then dedupFirstGo seen rest
    else p :: dedupFirstGo (seen ++ [p]) rest

/-- Distinct values of a list in first-occurrence order. -/
def dedupFirst {α : Type} [BEq α] (l : List α) : List α :=
  dedupFirstGo [] l

/-- `Math.ceil(a / b)` for natural `a` and positive `b`. -/
def ceilDiv (a b : Nat) : Nat := (a + b - 1) / b

/-- Stable insertion into a sorted list: the new element goes after every
element `y` with `le y x`. -/
def insertByLe {α : Type} (le : α → α → Bool) (x : α) : List α → List α
  | [] => [x]
  | y :: ys => if le y x then y :: insertByLe le x ys else x :: y :: ys

/-- Stable sort by a boolean comparator; for a total transitive comparator
this is the permutation produced by JS `Array.prototype.sort`. -/
def sortByLe {α : Type} (le : α → α → Bool) (l : List α) : List α :=
  l.foldl (fun acc x => insertByLe le x acc) []

/-- Lexicographic comparison of character lists by code point.  (JS compares
UTF-16 code units; the two orders agree on all characters below `0x10000`,
and no verified property depends on the relative order of program names.) -/
def chLt : List Char → List Char → Bool
  | [], [] => false
  | [], _ :: _ => true
  | _ :: _, [] => false
  | a :: as, b :: bs =>
    if a.toNat < b.toNat then true
    else if b.toNat < a.toNat then false
    else chLt as bs

/-- String comparison used for sorting program names. -/
def strLt (a b : String) : Bool := chLt a.data b.data

/-- Lexicographic sort of strings (JS default-comparator sort of the
program names). -/
def insertStr (p : String) : List String → List String
  | [] => [p]
  | q :: rest => if strLt p q then p :: q :: rest else q :: insertStr p rest

/-- Sorted copy of a list of strings. -/
def sortStrings (l : List String) : List String := l.foldr insertStr []

/-- An input row: a student with a name and a study program (the category). -/
structure Student where
  name : String
  program : String
deriving DecidableEq, Repr

/-- A placed student: the `{ name, program, locked }` records stored in the
generated groups; `locked` is the pinned flag. -/
structure Placement where
  name : String
  program : String
  locked : Bool
deriving DecidableEq, Repr

/-- A rendered group `{ index, students, missingPrograms }`;
`missingPrograms` is `none` for the JS `null`. -/
structure Group where
  index : Nat
  students : List Placement
  missingPrograms : Option (List String)
deriving DecidableEq, Repr

/-- The value returned by `groupStudents`. -/
structure BuildResult where
  groupSize : Nat
  numGroups : Nat
  programs : List String
  groups : List Group
deriving DecidableEq, Repr

/-- The final `groups.map((students, i) => ...)` step: attach 1-based
indices and the per-group `missingPrograms` report. -/
def withWarningsGo (programs : List String) : Nat → List (List Placement) → List Group
  | _, [] => []
  | i, g :: rest =>
    let missing := programs.filter (fun p => !((g.map (fun s => s.program)).contains p))
    { index := i + 1, students := g,
      missingPrograms := if missing.isEmpty then none else some missing }
      :: withWarningsGo programs (i + 1) rest

/-- Attach indices and missing-program warnings to a list of groups. -/
def withWarnings (programs : List String) (grps : List (List Placement)) : List Group :=
  withWarningsGo programs 0 grps

/-- Phase 1 of `groupStudents` for one sufficient program: walk the groups
in order; where the group is below capacity and the bucket is non-empty,
pop a student from the bucket into the group. -/
def phase1Go (gs : Nat) : List (List Placement) → List Student → List (List Placement) × List Student
  | [], bk => ([], bk)
  | g :: rest, bk =>
    if g.length < gs then
      match popBack bk with
      | some pr =>
        let pr2 := phase1Go gs rest pr.2
        ((g ++ [{ name := pr.1.name, program := pr.1.program, locked := false }]) :: pr2.1, pr2.2)
      | none =>
        let pr2 := phase1Go gs rest bk
        (g :: pr2.1, pr2.2)
    else
      let pr2 := phase1Go gs rest bk
      (g :: pr2.1, pr2.2)

/-- Run phase 1 over the bucket entries `(program, sufficient?, bucket)` in
sorted program order, skipping the short programs, and return the updated
groups together with the leftover buckets. -/
def phase1All (gs : Nat) : List (List Placement) → List (String × Bool × List Student) → List (List Placement) × List (String × Bool × List Student)
  | grps, [] => (grps, [])
  | grps, e :: rest =>
    if e.2.1 then
      let pr := phase1Go gs grps e.2.2
      let pr2 := phase1All gs pr.1 rest
      (pr2.1, (e.1, e.2.1, pr.2) :: pr2.2)
    else
      let pr2 := phase1All gs grps rest
      (pr2.1, e :: pr2.2)

/-- `groups.every(gr => gr.length >= groupSize)`. -/
def allFull (gs : Nat) (grps : List (List Placement)) : Bool :=
  grps.all (fun g => decide (gs ≤ g.length))

/-- First group index with spare capacity, scanning cyclically from `g`
over `n` slots — the indices the phase-2 loop visits while it skips full
groups. -/
def findSlot (gs : Nat) (grps : List (List Placement)) (n g : Nat) : Option Nat :=
  ((List.range n).map (fun k => (g + k) % n)).find? (fun i => decide ((grps.getD i []).length < gs))

/-- `groups[g].push(...)` through an index. -/
def pushAt (grps : List (List Placement)) (i : Nat) (x : Placement) : List (List Placement) :=
  grps.set i (grps.getD i [] ++ [x])

/-- Phase 2 of `groupStudents` for one short program: the
`while (bucket.length > 0)` loop that round-robins students into the next
non-full group and stops when the bucket is empty or every group is full.
The loop body only changes state when it reaches a non-full group, so it is
phrased as: stop on empty bucket or all-full; otherwise pop into the first
non-full slot at or after `g` (cyclically) and continue after it. -/
def phase2One (gs n : Nat) (grps : List (List Placement)) (bucket : List Student) (g : Nat) : List (List Placement) × List Student :=
  match _hb : bucket.getLast? with
  | none => (grps, bucket)
  | some s =>
    if allFull gs grps then (grps, bucket)
    else
      match findSlot gs grps n g with
      | none => (grps, bucket)
      | some i =>
        phase2One gs n (pushAt grps i { name := s.name, program := s.program, locked := false })
          bucket.dropLast ((i + 1) % n)
termination_by bucket.length
decreasing_by
  cases bucket with
  | nil => simp at _hb
  | cons a t => simp

/-- Run phase 2 over the bucket entries, touching only the short programs. -/
def phase2All (gs n : Nat) : List (List Placement) → List (String × Bool × List Student) → List (List Placement) × List (String × Bool × List Student)
  | grps, [] => (grps, [])
  | grps, e :: rest =>
    if e.2.1 then
      let pr2 := phase2All gs n grps rest
      (pr2.1, e :: pr2.2)
    else
      let pr := phase2One gs n grps e.2.2 0
      let pr2 := phase2All gs n pr.1 rest
      (pr2.1, (e.1, e.2.1, pr.2) :: pr2.2)

/-- One step of phase 3: append the student to the first group of the
size-sorted list when it has room (the inner `for (const g of groups)`
with its break; since the list is sorted ascending by size, the first
group is the only candidate). -/
def phase3Step (gs : Nat) (s : Student) : List (List Placement) → List (List Placement)
  | [] => []
  | g0 :: others =>
    if g0.length < gs then
      (g0 ++ [{ name := s.name, program := s.program, locked := false }]) :: others
    else g0 :: others

/-- Phase 3 of `groupStudents`: for each pooled leftover student, stably
sort the groups by size and append the student to the smallest group if it
has room; stop once every group is full. -/
def phase3 (gs : Nat) : List (List Placement) → List Student → List (List Placement)
  | grps, [] => grps
  | grps, s :: rest =>
    let sorted2 := phase3Step gs s (sortByLe (fun a b => decide (a.length ≤ b.length)) grps)
    if allFull gs sorted2 then sorted2 else phase3 gs sorted2 rest

/-- The random source chosen by `groupStudents`: seeded `mulberry32` for a
numeric seed, the ambient `Math.random` stream otherwise. -/
def mkRng (seed : Option Nat) (sys : Nat → Nat) : Rng :=
  match seed with
  | some s => Rng.seeded (s % W32)
  | none => Rng.system sys 0

/-- Phases 1-3 of `groupStudents` from the flagged bucket entries: run the
sufficient programs, then the short ones, pool and shuffle the leftovers,
and distribute them by smallest group. -/
def stagesPipeline (gs n : Nat) (entries : List (String × Bool × List Student)) (rng2 : Rng) :
    List (List Placement) :=
  let st1 := phase1All gs (List.replicate n []) entries
  let st2 := phase2All gs n st1.1 st1.2
  let rest0 := st2.2.foldr (fun e acc => e.2.2 ++ acc) []
  let shr := shuffleList rest0 rng2
  phase3 gs st2.1 shr.1

/-- The allocation pipeline of `groupStudents` after its argument checks:
returns the sorted program list, the group count, and the filled groups. -/
def buildCore (students : List Student) (gs : Nat) (rng0 : Rng) :
    List String × Nat × List (List Placement) :=
  let total := students.length
  let programs := sortStrings (dedupFirst (students.map (fun s => s.program)))
  let buckets0 := programs.map (fun p => (p, students.filter (fun s => s.program == p)))
  let sh := shuffleAll rng0 buckets0
  let numGroups := ceilDiv total gs
  let entries := sh.1.map (fun e => (e.1, decide (numGroups ≤ e.2.length), e.2))
  (programs, numGroups, stagesPipeline gs numGroups entries sh.2)

/-- The partition builder `groupStudents(students, groupSize, seed)`.
`sys` is the ambient `Math.random` stream used when no seed is given. -/
def groupStudents (students : List Student) (groupSize : Nat) (seed : Option Nat) (sys : Nat → Nat) : Except String BuildResult :=
  if groupSize = 0 then Except.error "group_size must be positive"
  else if students.length = 0 then Except.error "No students"
  else
    let core := buildCore students groupSize (mkRng seed sys)
    Except.ok { groupSize := groupSize, numGroups := core.2.1, programs := core.1,
                groups := withWarnings core.1 core.2.2 }

/-- Queue lookup `queues[p]` (missing key = empty). -/
def qget (qs : List (String × List Placement)) (p : String) : List Placement :=
  match qs.find? (fun e => e.1 == p) with
  | some e => e.2
  | none => []

/-- Queue update `queues[p] = l`. -/
def qset (qs : List (String × List Placement)) (p : String) (l : List Placement) : List (String × List Placement) :=
  qs.map (fun e => if e.1 == p then (e.1, l) else e)

/-- The inner loop of the repartitioner's fill phase for one target group:
for each missing program, if the group is below capacity pop one student
from that program's queue into it (skip programs with empty queues). -/
def fillGroup (gs : Nat) : List Placement → List (String × List Placement) → List String → List Placement × List (String × List Placement)
  | g, qs, [] => (g, qs)
  | g, qs, p :: ps =>
    if gs ≤ g.length then (g, qs)
    else
      match popBack (qget qs p) with
      | none => fillGroup gs g qs ps
      | some pr =>
        fillGroup gs (g ++ [{ name := pr.1.name, program := pr.1.program, locked := false }])
          (qset qs p pr.2) ps

/-- The fill phase over all target groups in order, threading the queues. -/
def fillAllGo (gs : Nat) (enough : List String) : List (List Placement) → List (String × List Placement) → List (List Placement) × List (String × List Placement)
  | [], qs => ([], qs)
  | g :: rest, qs =>
    let missing := enough.filter (fun p => !((g.map (fun s => s.program)).contains p))
    let pr := fillGroup gs g qs missing
    let pr2 := fillAllGo gs enough rest pr.2
    (pr.1 :: pr2.1, pr2.2)

/-- Leftover distribution of the repartitioner: each student goes to the
first group of the precomputed `targetOrder` that still has room; when no
group has room the remaining students are dropped (`placed = false; break`). -/
def placeLeft (gs : Nat) (ord : List Nat) : List (List Placement) → List Placement → List (List Placement)
  | res, [] => res
  | res, s :: rest =>
    match ord.find? (fun i => decide ((res.getD i []).length < gs)) with
    | some i =>
      placeLeft gs ord
        (res.set i (res.getD i [] ++ [{ name := s.name, program := s.program, locked := false }])) rest
    | none => res

/-- The repartitioner pipeline after its feasibility check: place the
cohorts, fill missing sufficient programs from the shuffled queues,
then distribute the shuffled leftovers in the lock-free-first order. -/
def reshuffleCore (gs target : Nat) (enough : List String) (cohorts : List (List Placement))
    (pool : List Placement) (rng0 : Rng) : List (List Placement) :=
  let result0 :=
    cohorts.map (fun c => c.map
      (fun s => ({ name := s.name, program := s.program, locked := true } : Placement)))
      ++ List.replicate (target - cohorts.length) []
  let qkeys := dedupFirst (pool.map (fun s => s.program))
  let queues0 := qkeys.map (fun p => (p, pool.filter (fun s => s.program == p)))
  let shq := shuffleAll rng0 queues0
  let afterFill := fillAllGo gs enough result0 shq.1
  let leftover0 := afterFill.2.foldr (fun e acc => e.2 ++ acc) []
  let shl := shuffleList leftover0 shq.2
  let res1 := afterFill.1
  let hasLocks := fun (l : List Placement) => l.any (fun s => s.locked)
  let targetOrder := sortByLe
    (fun a b =>
      if hasLocks (res1.getD a []) == hasLocks (res1.getD b [])
      then decide ((res1.getD a []).length ≤ (res1.getD b []).length)
      else hasLocks (res1.getD b []))
    (List.range target)
  placeLeft gs targetOrder res1 shl.1

/-- The constrained repartitioner
`reshuffleRespectingLocksToGroupSize(groups, programs, groupSize, seed)`. -/
def reshuffleRespectingLocksToGroupSize (groups : List Group) (programs : List String) (gs : Nat) (rng0 : Rng) : Except String (List Group) :=
  let total := (groups.map (fun g => g.students.length)).sum
  let target := max 1 (ceilDiv total gs)
  let allStudents := groups.foldr (fun g acc => g.students ++ acc) []
  let enough := programs.filter
    (fun p => decide (target ≤ (allStudents.filter (fun s => s.program == p)).length))
  let cohorts := (groups.map (fun g => g.students.filter (fun s => s.locked))).filter
    (fun l => !l.isEmpty)
  if target < cohorts.length then
    Except.error "Too many groups with locked students to merge without moving them."
  else
    let pool := (allStudents.filter (fun s => !s.locked)).map
      (fun s => ({ name := s.name, program := s.program, locked := false } : Placement))
    Except.ok (withWarnings programs (reshuffleCore gs target enough cohorts pool rng0))

/-- The cohort identity key `` `${s.name}:::${s.program}` ``. -/
def keyOf (s : Placement) : String := s.name ++ ":::" ++ s.program

/-- JS `Map.set` on an association list: overwrite in place or append. -/
def mapSet (m : List (String × Nat)) (k : String) (v : Nat) : List (String × Nat) :=
  if m.any (fun e => e.1 == k) then m.map (fun e => if e.1 == k then (e.1, v) else e)
  else m ++ [(k, v)]

/-- JS `Map.get` on an association list. -/
def mapGet? (m : List (String × Nat)) (k : String) : Option Nat :=
  (m.find? (fun e => e.1 == k)).map (fun e => e.2)

/-- Build the `keyToCohort` map: every key of every cohort maps to its
cohort index, later cohorts overwriting earlier ones. -/
def buildK2CAux (i : Nat) : List (List String) → List (String × Nat) → List (String × Nat)
  | [], m => m
  | ks :: rest, m => buildK2CAux (i + 1) rest (ks.foldl (fun m2 k => mapSet m2 k i) m)

/-- The `keyToCohort` map of `lockedStayInPlace`. -/
def buildK2C (cohorts : List (List String)) : List (String × Nat) :=
  buildK2CAux 0 cohorts []

/-- The main loop of `lockedStayInPlace` over the after-groups, carrying the
`satisfied` flags. -/
def lspGo (cohorts : List (List String)) (k2c : List (String × Nat)) : List Group → List Bool → Bool
  | [], satisfied => satisfied.all (fun b => b)
  | g :: rest, satisfied =>
    let lockedKeys := (g.students.filter (fun s => s.locked)).map keyOf
    let cids := dedupFirst (lockedKeys.filterMap (fun k => mapGet? k2c k))
    if 1 < cids.length then false
    else
      match cids with
      | [cid] =>
        if (cohorts.getD cid []).all (fun k => lockedKeys.contains k) then
          if satisfied.getD cid false then false
          else lspGo cohorts k2c rest (satisfied.set cid true)
        else false
      | _ => lspGo cohorts k2c rest satisfied

/-- The cohort integrity checker `lockedStayInPlace(prevGroups, nextGroups)`. -/
def lockedStayInPlace (prevGroups nextGroups : List Group) : Bool :=
  let cohorts := (prevGroups.map
    (fun g => dedupFirst ((g.students.filter (fun s => s.locked)).map keyOf))).filter
    (fun ks => !ks.isEmpty)
  if cohorts.isEmpty then true
  else lspGo cohorts (buildK2C cohorts) nextGroups (List.replicate cohorts.length false)

/-- Split a character list on a separator character, keeping empty pieces. -/
def chSplit (sep : Char) : List Char → List (List Char)
  | [] => [[]]
  | c :: rest =>
    match chSplit sep rest with
    | [] => [[]]
    | cur :: parts => if c == sep then [] :: cur :: parts else (c :: cur) :: parts

/-- Split a string on a separator character (`text.split(',')` and the
newline split). -/
def strSplit (sep : Char) (s : String) : List String :=
  (chSplit sep s.data).map String.mk

/-- Drop leading whitespace characters. -/
def chTrimLeft : List Char → List Char
  | [] => []
  | c :: rest => if c.isWhitespace then chTrimLeft rest else c :: rest

/-- `s.trim()`: drop whitespace from both ends. -/
def strTrim (s : String) : String :=
  String.mk ((chTrimLeft ((chTrimLeft s.data).reverse)).reverse)

/-- `s.toLowerCase()` (ASCII case mapping; the recognized header aliases
are all ASCII). -/
def strLower (s : String) : String := String.mk (s.data.map Char.toLower)

/-- Split the CSV text into non-blank lines (`text.split(/\r?\n/)` followed
by the blank filter; a lone carriage return at the end of the text is
normalised away, which no later step can observe since every consumed field
is trimmed). -/
def splitLines (text : String) : List String :=
  ((strSplit '\n' text).map
    (fun l => if l.data.getLast? == some '\r' then String.mk l.data.dropLast else l)).filter
    (fun l => decide (0 < (strTrim l).length))

/-- Recognized header aliases for the name column. -/
def nameAliases : List String := ["name", "student", "student_name", "student name"]

/-- Recognized header aliases for the program column. -/
def programAliases : List String := ["program", "programme", "study_program", "study programme", "studyprogram", "major"]

/-- The header scan loop, walking the columns with their indices. -/
def lastAliasIdxGo (aliases : List String) : Nat → List String → Option Nat → Option Nat
  | _, [], acc => acc
  | i, h :: rest, acc =>
    lastAliasIdxGo aliases (i + 1) rest (if aliases.contains h then some i else acc)

/-- The header scan: the last column index whose trimmed lowercase text is
one of the aliases (the JS loop keeps overwriting without break). -/
def lastAliasIdx (aliases : List String) (header : List String) : Option Nat :=
  lastAliasIdxGo aliases 0 header none

/-- Row extraction with fixed column indices: split on commas, trim the two
fields, silently drop rows where either is empty. -/
def parseRows (nameIdx progIdx : Nat) (rows : List String) : List Student :=
  rows.filterMap (fun line =>
    let row := strSplit ',' line
    let name := strTrim (row.getD nameIdx "")
    let program := strTrim (row.getD progIdx "")
    if name.data.isEmpty || program.data.isEmpty then none
    else some { name := name, program := program })

/-- The CSV parser `parseCSV(text)`. -/
def parseCSV (text : String) : Except String (List Student) :=
  match splitLines text with
  | [] => Except.error "CSV is empty"
  | headerLine :: rows =>
    let header := (strSplit ',' headerLine).map (fun s => strLower (strTrim s))
    let nameIdx0 := lastAliasIdx nameAliases header
    let progIdx0 := lastAliasIdx programAliases header
    let resolved : Except String (Nat × Nat) :=
      match nameIdx0, progIdx0 with
      | some n, some p => Except.ok (n, p)
      | _, _ =>
        if 2 ≤ header.length then Except.ok (0, 1)
        else Except.error "Missing name or program header"
    match resolved with
    | Except.error e => Except.error e
    | Except.ok ids =>
      let students := parseRows ids.1 ids.2 rows
      if students.isEmpty then Except.error "No students found in CSV"
      else Except.ok students

/-! Concrete inputs used by the counterexamples and witnesses below. -/

/-- A constant ambient randomness stream (all draws zero). -/
def sysZero : Nat → Nat := fun _ => 0

/-- Two one-member cohorts carrying the same `(name, program)` identity. -/
def cex4Prev : List Group := [⟨1, [⟨"A", "X", true⟩], none⟩, ⟨2, [⟨"A", "X", true⟩], none⟩]

/-- What the repartitioner returns on `cex4Prev` at capacity 1. -/
def cex4Out : List Group := [⟨1, [⟨"A", "X", true⟩], none⟩, ⟨2, [⟨"A", "X", true⟩], none⟩]

/-- A single group whose five members are all pinned. -/
def cex5Prev : List Group :=
  [⟨1, [⟨"A", "X", true⟩, ⟨"B", "X", true⟩, ⟨"C", "X", true⟩, ⟨"D", "X", true⟩, ⟨"E", "X", true⟩], none⟩]

/-- What the repartitioner returns on `cex5Prev` at capacity 4: the cohort
kept intact but over capacity, and no error. -/
def cex5Out : List Group :=
  [⟨1, [⟨"A", "X", true⟩, ⟨"B", "X", true⟩, ⟨"C", "X", true⟩, ⟨"D", "X", true⟩, ⟨"E", "X", true⟩], none⟩,
   ⟨2, [], some ["X"]⟩]

/-- A one-student roster. -/
def ws1 : List Student := [⟨"A", "X"⟩]

/-- The partition built from `ws1` at capacity 1. -/
def ws1Res : BuildResult := ⟨1, 1, ["X"], [⟨1, [⟨"A", "X", false⟩], none⟩]⟩

/-- Two students of one program. -/
def ws2 : List Student := [⟨"A", "X"⟩, ⟨"B", "X"⟩]

/-- Three students of three distinct programs. -/
def ws3 : List Student := [⟨"A", "X"⟩, ⟨"B", "Y"⟩, ⟨"C", "Z"⟩]

/-- One group with a pinned student and an unpinned one. -/
def w4Prev : List Group := [⟨1, [⟨"A", "X", true⟩, ⟨"B", "X", false⟩], none⟩]

/-- What the repartitioner returns on `w4Prev` at capacity 1. -/
def w4Out : List Group := [⟨1, [⟨"A", "X", true⟩], none⟩, ⟨2, [⟨"B", "X", false⟩], none⟩]

/-! Helper lemmas. -/

theorem popBack_eq_some {α : Type} {l t : List α} {x : α}
    (h : popBack l = some (x, t)) : l = t ++ [x] := by
  unfold popBack at h
  cases hl : l.getLast? with
  | none => rw [hl] at h; simp at h
  | some y =>
    rw [hl] at h
    simp only [Option.some.injEq, Prod.mk.injEq] at h
    obtain ⟨hy, ht⟩ := h
    obtain ⟨ys, rfl⟩ := List.getLast?_eq_some_iff.mp hl
    subst hy; subst ht
    simp

theorem popBack_mem {α : Type} {l t : List α} {x : α}
    (h : popBack l = some (x, t)) : x ∈ l ∧ ∀ y ∈ t, y ∈ l := by
  rw [popBack_eq_some h]
  constructor
  · simp
  · intro y hy; simp [hy]

theorem popBack_length {α : Type} {l t : List α} {x : α}
    (h : popBack l = some (x, t)) : l.length = t.length + 1 := by
  rw [popBack_eq_some h]; simp

theorem phase1Go_length (gs : Nat) (grps : List (List Placement)) : ∀ bk : List Student,
    ((phase1Go gs grps bk).1).length = grps.length := by
  induction grps with
  | nil => intro bk; rfl
  | cons g rest ih =>
    intro bk
    simp only [phase1Go]
    split
    · split
      · simp [ih]
      · simp [ih]
    · simp [ih]

theorem phase1Go_sum (gs : Nat) (grps : List (List Placement)) : ∀ bk : List Student,
    (((phase1Go gs grps bk).1).map List.length).sum + ((phase1Go gs grps bk).2).length
      = (grps.map List.length).sum + bk.length := by
  induction grps with
  | nil => intro bk; rfl
  | cons g rest ih =>
    intro bk
    simp only [phase1Go]
    split
    · split
      · rename_i pr hpb
        have hlen := popBack_length hpb
        simp only [List.map_cons, List.sum_cons, List.length_append, List.length_cons,
          List.length_nil]
        have := ih pr.2
        omega
      · simp only [List.map_cons, List.sum_cons]
        have := ih bk
        omega
    · simp only [List.map_cons, List.sum_cons]
      have := ih bk
      omega

theorem phase1Go_cap (gs : Nat) (grps : List (List Placement)) : ∀ bk : List Student,
    (∀ g ∈ grps, g.length ≤ gs) → ∀ g ∈ (phase1Go gs grps bk).1, g.length ≤ gs := by
  induction grps with
  | nil => intro bk h g hg; exact absurd hg (by simp [phase1Go])
  | cons g0 rest ih =>
    intro bk h g hg
    simp only [phase1Go] at hg
    split at hg
    · rename_i hlt
      split at hg
      · rename_i pr hpb
        simp only [List.mem_cons] at hg
        rcases hg with rfl | hg
        · simp only [List.length_append, List.length_cons, List.length_nil]
          have := h g0 (by simp)
          omega
        · exact ih pr.2 (fun g hg2 => h g (List.mem_cons_of_mem _ hg2)) g hg
      · simp only [List.mem_cons] at hg
        rcases hg with rfl | hg
        · exact h g (by simp)
        · exact ih bk (fun g hg2 => h g (List.mem_cons_of_mem _ hg2)) g hg
    · simp only [List.mem_cons] at hg
      rcases hg with rfl | hg
      · exact h g (by simp)
      · exact ih bk (fun g hg2 => h g (List.mem_cons_of_mem _ hg2)) g hg

theorem phase1Go_presG (gs : Nat) (Q : List Placement → Prop)
    (hQ : ∀ g x, Q g → x.locked = false → Q (g ++ [x]))
    (grps : List (List Placement)) : ∀ bk : List Student,
    (∀ g ∈ grps, Q g) → ∀ g ∈ (phase1Go gs grps bk).1, Q g := by
  induction grps with
  | nil => intro bk h g hg; exact absurd hg (by simp [phase1Go])
  | cons g0 rest ih =>
    intro bk h g hg
    simp only [phase1Go] at hg
    split at hg
    · split at hg
      · rename_i pr hpb
        simp only [List.mem_cons] at hg
        rcases hg with rfl | hg
        · exact hQ g0 _ (h g0 (by simp)) rfl
        · exact ih pr.2 (fun g hg2 => h g (List.mem_cons_of_mem _ hg2)) g hg
      · simp only [List.mem_cons] at hg
        rcases hg with rfl | hg
        · exact h g (by simp)
        · exact ih bk (fun g hg2 => h g (List.mem_cons_of_mem _ hg2)) g hg
    · simp only [List.mem_cons] at hg
      rcases hg with rfl | hg
      · exact h g (by simp)
      · exact ih bk (fun g hg2 => h g (List.mem_cons_of_mem _ hg2)) g hg

theorem phase1All_length (gs : Nat) (entries : List (String × Bool × List Student)) :
    ∀ grps : List (List Placement),
    ((phase1All gs grps entries).1).length = grps.length := by
  induction entries with
  | nil => intro grps; rfl
  | cons e rest ih =>
    intro grps
    simp only [phase1All]
    split
    · simpa [ih] using phase1Go_length gs grps e.2.2
    · simp [ih]

theorem phase1All_sum (gs : Nat) (entries : List (String × Bool × List Student)) :
    ∀ grps : List (List Placement),
    (((phase1All gs grps entries).1).map List.length).sum
        + (((phase1All gs grps entries).2).map (fun e => e.2.2.length)).sum
      = (grps.map List.length).sum + (entries.map (fun e => e.2.2.length)).sum := by
  induction entries with
  | nil => intro grps; simp [phase1All]
  | cons e rest ih =>
    intro grps
    simp only [phase1All]
    split
    · have h1 := phase1Go_sum gs grps e.2.2
      have h2 := ih (phase1Go gs grps e.2.2).1
      simp only [List.map_cons, List.sum_cons]
      omega
    · have h2 := ih grps
      simp only [List.map_cons, List.sum_cons]
      omega

theorem phase1All_cap (gs : Nat) (entries : List (String × Bool × List Student)) :
    ∀ grps : List (List Placement),
    (∀ g ∈ grps, g.length ≤ gs) → ∀ g ∈ (phase1All gs grps entries).1, g.length ≤ gs := by
  induction entries with
  | nil => intro grps h g hg; simpa [phase1All] using (fun hm => h g hm) (by simpa [phase1All] using hg)
  | cons e rest ih =>
    intro grps h g hg
    simp only [phase1All] at hg
    split at hg
    · exact ih _ (phase1Go_cap gs grps e.2.2 h) g hg
    · exact ih _ h g hg

theorem pushAt_length (grps : List (List Placement)) (i : Nat) (x : Placement) :
    (pushAt grps i x).length = grps.length := by
  simp [pushAt]

theorem pushAt_cons_succ (g : List Placement) (rest : List (List Placement)) (j : Nat)
    (x : Placement) : pushAt (g :: rest) (j + 1) x = g :: pushAt rest j x := by
  simp [pushAt]

theorem pushAt_sum (x : Placement) : ∀ (grps : List (List Placement)) (i : Nat),
    i < grps.length →
    ((pushAt grps i x).map List.length).sum = (grps.map List.length).sum + 1 := by
  intro grps
  induction grps with
  | nil => intro i h; simp at h
  | cons g rest ih =>
    intro i h
    cases i with
    | zero =>
      simp only [pushAt, List.getD_cons_zero, List.set_cons_zero, List.map_cons, List.sum_cons,
        List.length_append, List.length_cons, List.length_nil]
      omega
    | succ j =>
      have hj : j < rest.length := by simpa using h
      rw [pushAt_cons_succ]
      simp only [List.map_cons, List.sum_cons, ih j hj]
      omega

theorem getD_mem {grps : List (List Placement)} {i : Nat} (h : i < grps.length) :
    grps.getD i [] ∈ grps := by
  rw [List.getD_eq_getElem?_getD, List.getElem?_eq_getElem h]
  exact List.getElem_mem h

theorem pushAt_mem {grps : List (List Placement)} {i : Nat} {x : Placement} {g : List Placement}
    (hg : g ∈ pushAt grps i x) : g ∈ grps ∨ g = grps.getD i [] ++ [x] := by
  unfold pushAt at hg
  rcases List.mem_or_eq_of_mem_set hg with h | h
  · exact Or.inl h
  · exact Or.inr h

theorem findSlot_some {gs : Nat} {grps : List (List Placement)} {n g i : Nat}
    (h : findSlot gs grps n g = some i) : i < n ∧ (grps.getD i []).length < gs := by
  unfold findSlot at h
  have h1 := List.find?_some h
  have h2 := List.mem_of_find?_eq_some h
  refine ⟨?_, of_decide_eq_true h1⟩
  simp only [List.mem_map, List.mem_range] at h2
  obtain ⟨k, hk, rfl⟩ := h2
  exact Nat.mod_lt _ (by omega)

theorem phase2One_length (gs n : Nat) : ∀ (m : Nat) (bucket : List Student),
    bucket.length = m → ∀ (grps : List (List Placement)) (g : Nat),
    ((phase2One gs n grps bucket g).1).length = grps.length := by
  intro m
  induction m using Nat.strong_induction_on with
  | _ m ih =>
    intro bucket hm grps g
    rw [phase2One.eq_def]
    split
    · rfl
    · rename_i s hlast
      split
      · rfl
      · split
        · rfl
        · rename_i i hslot
          have hne : bucket ≠ [] := by
            intro hb; rw [hb] at hlast; simp at hlast
          have hlt : bucket.dropLast.length < m := by
            have : 0 < bucket.length := List.length_pos.mpr hne
            simp only [List.length_dropLast]
            omega
          rw [ih bucket.dropLast.length hlt bucket.dropLast rfl _ _]
          exact pushAt_length grps i _

theorem phase2One_sum (gs n : Nat) : ∀ (m : Nat) (bucket : List Student),
    bucket.length = m → ∀ (grps : List (List Placement)) (g : Nat), grps.length = n →
    (((phase2One gs n grps bucket g).1).map List.length).sum
        + ((phase2One gs n grps bucket g).2).length
      = (grps.map List.length).sum + bucket.length := by
  intro m
  induction m using Nat.strong_induction_on with
  | _ m ih =>
    intro bucket hm grps g hn
    rw [phase2One.eq_def]
    split
    · rfl
    · rename_i s hlast
      split
      · rfl
      · split
        · rfl
        · rename_i i hslot
          have hne : bucket ≠ [] := by
            intro hb; rw [hb] at hlast; simp at hlast
          have hpos : 0 < bucket.length := List.length_pos.mpr hne
          have hlt : bucket.dropLast.length < m := by
            simp only [List.length_dropLast]; omega
          have hi : i < n := (findSlot_some hslot).1
          have hrec := ih bucket.dropLast.length hlt bucket.dropLast rfl
            (pushAt grps i { name := s.name, program := s.program, locked := false })
            ((i + 1) % n)
            (by rw [pushAt_length]; exact hn)
          rw [hrec, pushAt_sum _ grps i (by omega)]
          simp only [List.length_dropLast]
          omega

theorem phase2One_cap (gs n : Nat) : ∀ (m : Nat) (bucket : List Student),
    bucket.length = m → ∀ (grps : List (List Placement)) (g : Nat), grps.length = n →
    (∀ g2 ∈ grps, g2.length ≤ gs) →
    ∀ g2 ∈ (phase2One gs n grps bucket g).1, g2.length ≤ gs := by
  intro m
  induction m using Nat.strong_induction_on with
  | _ m ih =>
    intro bucket hm grps g hn hcap
    rw [phase2One.eq_def]
    split
    · exact hcap
    · rename_i s hlast
      split
      · exact hcap
      · split
        · exact hcap
        · rename_i i hslot
          have hne : bucket ≠ [] := by
            intro hb; rw [hb] at hlast; simp at hlast
          have hpos : 0 < bucket.length := List.length_pos.mpr hne
          have hlt : bucket.dropLast.length < m := by
            simp only [List.length_dropLast]; omega
          obtain ⟨hi, hgd⟩ := findSlot_some hslot
          refine ih bucket.dropLast.length hlt bucket.dropLast rfl _ _
            (by rw [pushAt_length]; exact hn) ?_
          intro g2 hg2
          rcases pushAt_mem hg2 with h | rfl
          · exact hcap g2 h
          · simp only [List.length_append, List.length_cons, List.length_nil]
            omega

theorem phase2One_presG (gs n : Nat) (Q : List Placement → Prop)
    (hQ : ∀ g x, Q g → x.locked = false → Q (g ++ [x])) : ∀ (m : Nat) (bucket : List Student),
    bucket.length = m → ∀ (grps : List (List Placement)) (g : Nat), grps.length = n →
    (∀ g2 ∈ grps, Q g2) →
    ∀ g2 ∈ (phase2One gs n grps bucket g).1, Q g2 := by
  intro m
  induction m using Nat.strong_induction_on with
  | _ m ih =>
    intro bucket hm grps g hn hq
    rw [phase2One.eq_def]
    split
    · exact hq
    · rename_i s hlast
      split
      · exact hq
      · split
        · exact hq
        · rename_i i hslot
          have hne : bucket ≠ [] := by
            intro hb; rw [hb] at hlast; simp at hlast
          have hpos : 0 < bucket.length := List.length_pos.mpr hne
          have hlt : bucket.dropLast.length < m := by
            simp only [List.length_dropLast]; omega
          obtain ⟨hi, _⟩ := findSlot_some hslot
          refine ih bucket.dropLast.length hlt bucket.dropLast rfl _ _
            (by rw [pushAt_length]; exact hn) ?_
          intro g2 hg2
          rcases pushAt_mem hg2 with h | rfl
          · exact hq g2 h
          · exact hQ _ _ (hq _ (getD_mem (by omega))) rfl

theorem phase2All_length (gs n : Nat) (entries : List (String × Bool × List Student)) :
    ∀ grps : List (List Placement),
    ((phase2All gs n grps entries).1).length = grps.length := by
  induction entries with
  | nil => intro grps; rfl
  | cons e rest ih =>
    intro grps
    simp only [phase2All]
    split
    · simp [ih]
    · rw [ih]
      exact phase2One_length gs n e.2.2.length e.2.2 rfl grps 0

theorem phase2All_sum (gs n : Nat) (entries : List (String × Bool × List Student)) :
    ∀ grps : List (List Placement), grps.length = n →
    (((phase2All gs n grps entries).1).map List.length).sum
        + (((phase2All gs n grps entries).2).map (fun e => e.2.2.length)).sum
      = (grps.map List.length).sum + (entries.map (fun e => e.2.2.length)).sum := by
  induction entries with
  | nil => intro grps _; simp [phase2All]
  | cons e rest ih =>
    intro grps hn
    simp only [phase2All]
    split
    · have h2 := ih grps hn
      simp only [List.map_cons, List.sum_cons]
      omega
    · have h1 := phase2One_sum gs n e.2.2.length e.2.2 rfl grps 0 hn
      have h2 := ih (phase2One gs n grps e.2.2 0).1
        (by rw [phase2One_length gs n e.2.2.length e.2.2 rfl grps 0]; exact hn)
      simp only [List.map_cons, List.sum_cons]
      omega

theorem phase2All_cap (gs n : Nat) (entries : List (String × Bool × List Student)) :
    ∀ grps : List (List Placement), grps.length = n →
    (∀ g ∈ grps, g.length ≤ gs) →
    ∀ g ∈ (phase2All gs n grps entries).1, g.length ≤ gs := by
  induction entries with
  | nil => intro grps _ h g hg; exact h g (by simpa [phase2All] using hg)
  | cons e rest ih =>
    intro grps hn h g hg
    simp only [phase2All] at hg
    split at hg
    · exact ih grps hn h g hg
    · exact ih _ (by rw [phase2One_length gs n e.2.2.length e.2.2 rfl grps 0]; exact hn)
        (phase2One_cap gs n e.2.2.length e.2.2 rfl grps 0 hn h) g hg

theorem phase2All_presG (gs n : Nat) (Q : List Placement → Prop)
    (hQ : ∀ g x, Q g → x.locked = false → Q (g ++ [x]))
    (entries : List (String × Bool × List Student)) :
    ∀ grps : List (List Placement), grps.length = n →
    (∀ g ∈ grps, Q g) →
    ∀ g ∈ (phase2All gs n grps entries).1, Q g := by
  induction entries with
  | nil => intro grps _ h g hg; exact h g (by simpa [phase2All] using hg)
  | cons e rest ih =>
    intro grps hn h g hg
    simp only [phase2All] at hg
    split at hg
    · exact ih grps hn h g hg
    · exact ih _ (by rw [phase2One_length gs n e.2.2.length e.2.2 rfl grps 0]; exact hn)
        (phase2One_presG gs n Q hQ e.2.2.length e.2.2 rfl grps 0 hn h) g hg

theorem phase1All_presG (gs : Nat) (Q : List Placement → Prop)
    (hQ : ∀ g x, Q g → x.locked = false → Q (g ++ [x]))
    (entries : List (String × Bool × List Student)) :
    ∀ grps : List (List Placement),
    (∀ g ∈ grps, Q g) → ∀ g ∈ (phase1All gs grps entries).1, Q g := by
  induction entries with
  | nil => intro grps h g hg; exact h g (by simpa [phase1All] using hg)
  | cons e rest ih =>
    intro grps h g hg
    simp only [phase1All] at hg
    split at hg
    · exact ih _ (phase1Go_presG gs Q hQ grps e.2.2 h) g hg
    · exact ih _ h g hg

theorem lastAliasIdxGo_none (aliases : List String) (l : List String) :
    ∀ i, (∀ h ∈ l, aliases.contains h = false) → lastAliasIdxGo aliases i l none = none := by
  induction l with
  | nil => intro i _; rfl
  | cons x rest ih =>
    intro i h
    have hx := h x (List.mem_cons_self _ _)
    simp only [lastAliasIdxGo, hx, Bool.false_eq_true, if_false]
    exact ih (i + 1) (fun y hy => h y (List.mem_cons_of_mem _ hy))

theorem lastAliasIdx_eq_none (aliases header : List String)
    (h : ∀ x ∈ header, x ∉ aliases) : lastAliasIdx aliases header = none := by
  refine lastAliasIdxGo_none aliases header 0 (fun x hx => ?_)
  have := h x hx
  simpa using this

theorem insertByLe_perm {α : Type} (le : α → α → Bool) (x : α) :
    ∀ l : List α, (insertByLe le x l).Perm (x :: l) := by
  intro l
  induction l with
  | nil => exact List.Perm.refl _
  | cons y ys ih =>
    simp only [insertByLe]
    split
    · exact (List.Perm.cons y ih).trans (List.Perm.swap x y ys)
    · exact List.Perm.refl _

theorem sortByLe_go_perm {α : Type} (le : α → α → Bool) :
    ∀ (l acc : List α), (l.foldl (fun acc x => insertByLe le x acc) acc).Perm (acc ++ l) := by
  intro l
  induction l with
  | nil => intro acc; simp
  | cons x xs ih =>
    intro acc
    simp only [List.foldl_cons]
    exact ((ih _).trans ((insertByLe_perm le x acc).append_right xs)).trans
      List.perm_middle.symm

theorem sortByLe_perm {α : Type} (le : α → α → Bool) (l : List α) : (sortByLe le l).Perm l := by
  simpa using sortByLe_go_perm le l []

theorem insertByLe_pairwise {α : Type} (le : α → α → Bool)
    (htot : ∀ a b, le a b = true ∨ le b a = true)
    (htrans : ∀ a b c, le a b = true → le b c = true → le a c = true)
    (x : α) : ∀ l, l.Pairwise (fun a b => le a b = true) →
    (insertByLe le x l).Pairwise (fun a b => le a b = true) := by
  intro l
  induction l with
  | nil => intro _; simp [insertByLe]
  | cons y ys ih =>
    intro hp
    rw [List.pairwise_cons] at hp
    obtain ⟨hy, hys⟩ := hp
    simp only [insertByLe]
    split
    · rename_i hle
      rw [List.pairwise_cons]
      refine ⟨?_, ih hys⟩
      intro b hb
      rcases List.mem_cons.mp ((insertByLe_perm le x ys).mem_iff.mp hb) with rfl | h
      · exact hle
      · exact hy b h
    · rename_i hle
      have hxy : le x y = true := by
        rcases htot x y with h | h
        · exact h
        · exact absurd h hle
      rw [List.pairwise_cons]
      refine ⟨?_, List.pairwise_cons.mpr ⟨hy, hys⟩⟩
      intro b hb
      rcases List.mem_cons.mp hb with rfl | hb
      · exact hxy
      · exact htrans x y b hxy (hy b hb)

theorem sortByLe_go_pairwise {α : Type} (le : α → α → Bool)
    (htot : ∀ a b, le a b = true ∨ le b a = true)
    (htrans : ∀ a b c, le a b = true → le b c = true → le a c = true) :
    ∀ (l acc : List α), acc.Pairwise (fun a b => le a b = true) →
    (l.foldl (fun acc x => insertByLe le x acc) acc).Pairwise (fun a b => le a b = true) := by
  intro l
  induction l with
  | nil => intro acc h; exact h
  | cons x xs ih =>
    intro acc h
    simp only [List.foldl_cons]
    exact ih _ (insertByLe_pairwise le htot htrans x acc h)

theorem sortByLe_pairwise {α : Type} (le : α → α → Bool)
    (htot : ∀ a b, le a b = true ∨ le b a = true)
    (htrans : ∀ a b c, le a b = true → le b c = true → le a c = true)
    (l : List α) : (sortByLe le l).Pairwise (fun a b => le a b = true) :=
  sortByLe_go_pairwise le htot htrans l [] (by simp)

theorem listSwap_length {α : Type} (l : List α) (i j : Nat) :
    (listSwap l i j).length = l.length := by
  unfold listSwap
  split
  · simp
  · rfl

theorem listSwap_subset {α : Type} (l : List α) (i j : Nat) :
    ∀ z ∈ listSwap l i j, z ∈ l := by
  unfold listSwap
  split
  · rename_i x y hx hy
    intro z hz
    rcases List.mem_or_eq_of_mem_set hz with h | rfl
    · rcases List.mem_or_eq_of_mem_set h with h2 | rfl
      · exact h2
      · exact List.getElem?_mem hy
    · exact List.getElem?_mem hx
  · intro z hz; exact hz

theorem shuffleGo_length {α : Type} : ∀ (i : Nat) (l : List α) (rng : Rng),
    ((shuffleGo l rng i).1).length = l.length := by
  intro i
  induction i with
  | zero => intro l rng; rfl
  | succ k ih =>
    intro l rng
    simp only [shuffleGo]
    rw [ih, listSwap_length]

theorem shuffleGo_subset {α : Type} : ∀ (i : Nat) (l : List α) (rng : Rng),
    ∀ z ∈ (shuffleGo l rng i).1, z ∈ l := by
  intro i
  induction i with
  | zero => intro l rng z hz; exact hz
  | succ k ih =>
    intro l rng z hz
    simp only [shuffleGo] at hz
    exact listSwap_subset l _ _ z (ih _ _ z hz)

theorem shuffleList_length {α : Type} (l : List α) (rng : Rng) :
    ((shuffleList l rng).1).length = l.length :=
  shuffleGo_length _ l rng

theorem shuffleList_subset {α : Type} (l : List α) (rng : Rng) :
    ∀ z ∈ (shuffleList l rng).1, z ∈ l :=
  shuffleGo_subset _ l rng

theorem shuffleAll_spec {α : Type} : ∀ (bs : List (String × List α)) (rng : Rng),
    List.Forall₂ (fun e e2 => e2.1 = e.1 ∧ e2.2.length = e.2.length ∧ ∀ x ∈ e2.2, x ∈ e.2)
      bs ((shuffleAll rng bs).1) := by
  intro bs
  induction bs with
  | nil => intro rng; exact List.Forall₂.nil
  | cons e rest ih =>
    intro rng
    simp only [shuffleAll]
    exact List.Forall₂.cons
      ⟨rfl, shuffleList_length e.2 rng, shuffleList_subset e.2 rng⟩ (ih _)

theorem dedupFirstGo_mem {α : Type} [BEq α] [LawfulBEq α] :
    ∀ (l seen : List α) (x : α), x ∈ dedupFirstGo seen l ↔ (x ∈ l ∧ x ∉ seen) := by
  intro l
  induction l with
  | nil => intro seen x; simp [dedupFirstGo]
  | cons p rest ih =>
    intro seen x
    simp only [dedupFirstGo]
    split
    · rename_i hc
      rw [ih]
      have hps : p ∈ seen := by simpa using hc
      constructor
      · rintro ⟨h1, h2⟩
        exact ⟨List.mem_cons_of_mem _ h1, h2⟩
      · rintro ⟨h1, h2⟩
        rcases List.mem_cons.mp h1 with rfl | h1
        · exact absurd hps h2
        · exact ⟨h1, h2⟩
    · rename_i hc
      have hps : p ∉ seen := by simpa using hc
      simp only [List.mem_cons, ih]
      constructor
      · rintro (rfl | ⟨h1, h2⟩)
        · exact ⟨Or.inl rfl, hps⟩
        · refine ⟨Or.inr h1, fun hx => h2 ?_⟩
          simp [hx]
      · rintro ⟨rfl | h1, h2⟩
        · exact Or.inl rfl
        · by_cases hxp : x = p
          · exact Or.inl hxp
          · refine Or.inr ⟨h1, fun hx => ?_⟩
            simp only [List.mem_append, List.mem_singleton] at hx
            rcases hx with hx | hx
            · exact h2 hx
            · exact hxp hx

theorem dedupFirst_mem {α : Type} [BEq α] [LawfulBEq α] (l : List α) (x : α) :
    x ∈ dedupFirst l ↔ x ∈ l := by
  unfold dedupFirst
  rw [dedupFirstGo_mem]
  simp

theorem dedupFirstGo_nodup {α : Type} [BEq α] [LawfulBEq α] :
    ∀ (l seen : List α), (dedupFirstGo seen l).Nodup := by
  intro l
  induction l with
  | nil => intro seen; simp [dedupFirstGo]
  | cons p rest ih =>
    intro seen
    simp only [dedupFirstGo]
    split
    · exact ih seen
    · rw [List.nodup_cons]
      refine ⟨fun hp => ?_, ih _⟩
      have := (dedupFirstGo_mem rest (seen ++ [p]) p).mp hp
      simp at this

theorem dedupFirst_nodup {α : Type} [BEq α] [LawfulBEq α] (l : List α) :
    (dedupFirst l).Nodup :=
  dedupFirstGo_nodup l []

theorem insertStr_perm (p : String) : ∀ l : List String, (insertStr p l).Perm (p :: l) := by
  intro l
  induction l with
  | nil => exact List.Perm.refl _
  | cons q rest ih =>
    simp only [insertStr]
    split
    · exact List.Perm.refl _
    · exact (List.Perm.cons q ih).trans (List.Perm.swap p q rest)

theorem sortStrings_perm : ∀ l : List String, (sortStrings l).Perm l := by
  intro l
  induction l with
  | nil => exact List.Perm.refl _
  | cons x rest ih =>
    simp only [sortStrings, List.foldr_cons]
    exact (insertStr_perm x _).trans (List.Perm.cons x ih)

theorem filter_length_split {α : Type} (p : α → Bool) : ∀ l : List α,
    (l.filter p).length + (l.filter (fun a => !(p a))).length = l.length := by
  intro l
  induction l with
  | nil => rfl
  | cons a rest ih =>
    by_cases h : p a
    · simp only [List.filter_cons, h, if_true]
      simp only [h, Bool.not_true, Bool.false_eq_true, if_false, List.length_cons]
      omega
    · have h2 : p a = false := by simpa using h
      simp only [List.filter_cons, h2, Bool.false_eq_true, if_false, Bool.not_false, if_true,
        List.length_cons]
      omega

theorem filter_beq_of_ne {α : Type} (f : α → String) (p q : String) (hpq : q ≠ p) :
    ∀ pool : List α,
    pool.filter (fun s => f s == q)
      = (pool.filter (fun s => !(f s == p))).filter (fun s => f s == q) := by
  intro pool
  induction pool with
  | nil => rfl
  | cons s rest ih =>
    by_cases hq : f s = q
    · have h1 : (f s == q) = true := by simp [hq]
      have h2 : (!(f s == p)) = true := by simp [hq, hpq]
      simp only [List.filter_cons, h1, h2, if_true, ih]
    · have h1 : (f s == q) = false := by simpa using hq
      by_cases hp : f s = p
      · have h2 : (!(f s == p)) = false := by simp [hp]
        simp only [List.filter_cons, h1, h2, Bool.false_eq_true, if_false, ih]
      · have h2 : (!(f s == p)) = true := by simpa using hp
        simp only [List.filter_cons, h1, h2, Bool.false_eq_true, if_false, if_true,
          List.filter_cons, ih]

theorem keysum {α : Type} (f : α → String) : ∀ (keys : List String) (pool : List α),
    keys.Nodup → (∀ s ∈ pool, f s ∈ keys) →
    (keys.map (fun p => (pool.filter (fun s => f s == p)).length)).sum = pool.length := by
  intro keys
  induction keys with
  | nil =>
    intro pool _ hcov
    have : pool = [] := by
      rw [List.eq_nil_iff_forall_not_mem]
      intro s hs
      exact absurd (hcov s hs) (by simp)
    subst this
    rfl
  | cons p keys ih =>
    intro pool hnd hcov
    rw [List.nodup_cons] at hnd
    have hco : ∀ q ∈ keys,
        (pool.filter (fun s => f s == q)).length
          = ((pool.filter (fun s => !(f s == p))).filter (fun s => f s == q)).length := by
      intro q hq
      rw [← filter_beq_of_ne f p q (fun h => hnd.1 (h ▸ hq))]
    have hrec := ih (pool.filter (fun s => !(f s == p))) hnd.2 ?_
    · simp only [List.map_cons, List.sum_cons]
      rw [List.map_congr_left (fun q hq => hco q hq), hrec]
      have := filter_length_split (fun s => f s == p) pool
      omega
    · intro s hs
      rw [List.mem_filter] at hs
      have h1 := hcov s hs.1
      have h2 : ¬ (f s = p) := by
        intro h
        rw [h] at hs
        simp at hs
      rcases List.mem_cons.mp h1 with h | h
      · exact absurd h h2
      · exact h

theorem ceilDiv_mul_ge (a b : Nat) (hb : 0 < b) : a ≤ ceilDiv a b * b := by
  unfold ceilDiv
  have h : (a + b - 1) / b < ((a + b - 1) / b) + 1 := Nat.lt_succ_self _
  have h2 := (Nat.div_lt_iff_lt_mul hb).mp h
  rw [Nat.succ_mul] at h2
  omega

theorem ceilDiv_pos (a b : Nat) (ha : 0 < a) (hb : 0 < b) : 0 < ceilDiv a b := by
  unfold ceilDiv
  exact (Nat.one_le_div_iff hb).mpr (by omega)

theorem foldr_append_length {α β : Type} (f : α → List β) : ∀ l : List α,
    (l.foldr (fun e acc => f e ++ acc) []).length = (l.map (fun e => (f e).length)).sum := by
  intro l
  induction l with
  | nil => rfl
  | cons e rest ih =>
    simp only [List.foldr_cons, List.length_append, List.map_cons, List.sum_cons, ih]

theorem allFull_iff (gs : Nat) (grps : List (List Placement)) :
    allFull gs grps = true ↔ ∀ g ∈ grps, gs ≤ g.length := by
  simp [allFull]

theorem sum_ge_of_allFull (gs : Nat) : ∀ grps : List (List Placement),
    (∀ g ∈ grps, gs ≤ g.length) → grps.length * gs ≤ (grps.map List.length).sum := by
  intro grps
  induction grps with
  | nil => intro _; simp
  | cons g rest ih =>
    intro h
    have h1 := h g (by simp)
    have h2 := ih (fun g2 hg2 => h g2 (List.mem_cons_of_mem _ hg2))
    simp only [List.length_cons, List.map_cons, List.sum_cons, Nat.succ_mul]
    omega

theorem lenLe_total : ∀ a b : List Placement,
    decide (a.length ≤ b.length) = true ∨ decide (b.length ≤ a.length) = true := by
  intro a b
  rcases Nat.le_total a.length b.length with h | h
  · exact Or.inl (decide_eq_true h)
  · exact Or.inr (decide_eq_true h)

theorem lenLe_trans : ∀ a b c : List Placement,
    decide (a.length ≤ b.length) = true → decide (b.length ≤ c.length) = true →
    decide (a.length ≤ c.length) = true := by
  intro a b c h1 h2
  exact decide_eq_true (Nat.le_trans (of_decide_eq_true h1) (of_decide_eq_true h2))

theorem phase3Step_length (gs : Nat) (s : Student) : ∀ sorted : List (List Placement),
    (phase3Step gs s sorted).length = sorted.length := by
  intro sorted
  cases sorted with
  | nil => rfl
  | cons g0 others =>
    simp only [phase3Step]
    split <;> simp

theorem phase3Step_cap (gs : Nat) (s : Student) (sorted : List (List Placement))
    (h : ∀ g ∈ sorted, g.length ≤ gs) : ∀ g ∈ phase3Step gs s sorted, g.length ≤ gs := by
  cases sorted with
  | nil => intro g hg; simp [phase3Step] at hg
  | cons g0 others =>
    intro g hg
    simp only [phase3Step] at hg
    split at hg
    · rename_i hlt
      rcases List.mem_cons.mp hg with rfl | hg
      · simp only [List.length_append, List.length_cons, List.length_nil]
        omega
      · exact h g (List.mem_cons_of_mem _ hg)
    · exact h g hg

theorem phase3Step_presG (gs : Nat) (Q : List Placement → Prop)
    (hQ : ∀ g x, Q g → x.locked = false → Q (g ++ [x]))
    (s : Student) (sorted : List (List Placement))
    (h : ∀ g ∈ sorted, Q g) : ∀ g ∈ phase3Step gs s sorted, Q g := by
  cases sorted with
  | nil => intro g hg; simp [phase3Step] at hg
  | cons g0 others =>
    intro g hg
    simp only [phase3Step] at hg
    split at hg
    · rcases List.mem_cons.mp hg with rfl | hg
      · exact hQ g0 _ (h g0 (by simp)) rfl
      · exact h g (List.mem_cons_of_mem _ hg)
    · exact h g hg

theorem phase3_length (gs : Nat) (rest : List Student) : ∀ grps : List (List Placement),
    (phase3 gs grps rest).length = grps.length := by
  induction rest with
  | nil => intro grps; rfl
  | cons s rest ih =>
    intro grps
    simp only [phase3]
    have hsp := sortByLe_perm (fun a b : List Placement => decide (a.length ≤ b.length)) grps
    have hstep := phase3Step_length gs s (sortByLe (fun a b : List Placement => decide (a.length ≤ b.length)) grps)
    split
    · rw [hstep, hsp.length_eq]
    · rw [ih, hstep, hsp.length_eq]

theorem phase3_cap (gs : Nat) (rest : List Student) : ∀ grps : List (List Placement),
    (∀ g ∈ grps, g.length ≤ gs) → ∀ g ∈ phase3 gs grps rest, g.length ≤ gs := by
  induction rest with
  | nil => intro grps h; exact h
  | cons s rest ih =>
    intro grps hcap
    simp only [phase3]
    have hsp := sortByLe_perm (fun a b : List Placement => decide (a.length ≤ b.length)) grps
    have hstep := phase3Step_cap gs s _ (fun g hg => hcap g (hsp.mem_iff.mp hg))
    split
    · exact hstep
    · exact ih _ hstep

theorem phase3_presG (gs : Nat) (Q : List Placement → Prop)
    (hQ : ∀ g x, Q g → x.locked = false → Q (g ++ [x]))
    (rest : List Student) : ∀ grps : List (List Placement),
    (∀ g ∈ grps, Q g) → ∀ g ∈ phase3 gs grps rest, Q g := by
  induction rest with
  | nil => intro grps h; exact h
  | cons s rest ih =>
    intro grps hq
    simp only [phase3]
    have hsp := sortByLe_perm (fun a b : List Placement => decide (a.length ≤ b.length)) grps
    have hstep := phase3Step_presG gs Q hQ s _ (fun g hg => hq g (hsp.mem_iff.mp hg))
    split
    · exact hstep
    · exact ih _ hstep

theorem phase3Step_sum (gs : Nat) (s : Student) (sorted : List (List Placement))
    (hne : sorted ≠ [])
    (hpair : sorted.Pairwise (fun a b => decide (a.length ≤ b.length) = true))
    (hroom : (sorted.map List.length).sum < sorted.length * gs) :
    ((phase3Step gs s sorted).map List.length).sum = (sorted.map List.length).sum + 1 := by
  cases sorted with
  | nil => exact absurd rfl hne
  | cons g0 others =>
    rw [List.pairwise_cons] at hpair
    have hmin : ∀ g ∈ others, g0.length ≤ g.length :=
      fun g hg => of_decide_eq_true (hpair.1 g hg)
    have hg0 : g0.length < gs := by
      by_contra hge
      push_neg at hge
      have hall : ∀ g ∈ g0 :: others, gs ≤ g.length := by
        intro g hg
        rcases List.mem_cons.mp hg with rfl | hg
        · exact hge
        · exact Nat.le_trans hge (hmin g hg)
      have hgt := sum_ge_of_allFull gs (g0 :: others) hall
      omega
    simp only [phase3Step, if_pos hg0, List.map_cons, List.sum_cons, List.length_append,
      List.length_cons, List.length_nil]
    omega

theorem phase3_sum (gs : Nat) (rest : List Student) : ∀ grps : List (List Placement),
    (grps.map List.length).sum + rest.length ≤ grps.length * gs →
    ((phase3 gs grps rest).map List.length).sum
      = (grps.map List.length).sum + rest.length := by
  induction rest with
  | nil => intro grps _; simp [phase3]
  | cons s rest ih =>
    intro grps hbound
    simp only [phase3]
    have hsp := sortByLe_perm (fun a b : List Placement => decide (a.length ≤ b.length)) grps
    have hpair := sortByLe_pairwise (fun a b : List Placement => decide (a.length ≤ b.length))
      lenLe_total lenLe_trans grps
    have hlen := hsp.length_eq
    have hsum : ((sortByLe (fun a b : List Placement => decide (a.length ≤ b.length)) grps).map
        List.length).sum = (grps.map List.length).sum := (hsp.map List.length).sum_eq
    have hne : sortByLe (fun a b : List Placement => decide (a.length ≤ b.length)) grps ≠ [] := by
      intro h0
      rw [h0] at hsp
      have hg : grps = [] := hsp.symm.eq_nil
      subst hg
      simp at hbound
    have hroom : ((sortByLe (fun a b : List Placement => decide (a.length ≤ b.length)) grps).map
        List.length).sum
        < (sortByLe (fun a b : List Placement => decide (a.length ≤ b.length)) grps).length * gs := by
      rw [hsum, hlen]
      simp only [List.length_cons] at hbound
      omega
    have hstep := phase3Step_sum gs s _ hne hpair hroom
    have hslen := phase3Step_length gs s
      (sortByLe (fun a b : List Placement => decide (a.length ≤ b.length)) grps)
    split
    · rename_i hfull
      have hge := sum_ge_of_allFull gs _ ((allFull_iff _ _).mp hfull)
      rw [hstep, hsum] at hge
      rw [hslen, hlen] at hge
      simp only [List.length_cons] at hbound
      have hrest : rest.length = 0 := by omega
      rw [hstep, hsum]
      simp only [List.length_cons]
      omega
    · rename_i hfull
      rw [ih _ ?_]
      · rw [hstep, hsum]
        simp only [List.length_cons]
        omega
      · rw [hstep, hsum, hslen, hlen]
        simp only [List.length_cons] at hbound
        omega

theorem withWarningsGo_students (programs : List String) :
    ∀ (grps : List (List Placement)) (i : Nat),
    (withWarningsGo programs i grps).map (fun g => g.students) = grps := by
  intro grps
  induction grps with
  | nil => intro i; rfl
  | cons g rest ih =>
    intro i
    simp only [withWarningsGo, List.map_cons, ih]

theorem withWarnings_students (programs : List String) (grps : List (List Placement)) :
    (withWarnings programs grps).map (fun g => g.students) = grps :=
  withWarningsGo_students programs grps 0

theorem withWarningsGo_missing (programs : List String) :
    ∀ (grps : List (List Placement)) (i : Nat), ∀ g ∈ withWarningsGo programs i grps,
    g.students ∈ grps ∧
    g.missingPrograms =
      (if (programs.filter (fun p => !((g.students.map (fun s => s.program)).contains p))).isEmpty
       then none
       else some (programs.filter (fun p => !((g.students.map (fun s => s.program)).contains p)))) := by
  intro grps
  induction grps with
  | nil => intro i g hg; exact absurd hg (by simp [withWarningsGo])
  | cons g0 rest ih =>
    intro i g hg
    simp only [withWarningsGo, List.mem_cons] at hg
    rcases hg with rfl | hg
    · exact ⟨by simp, rfl⟩
    · obtain ⟨h1, h2⟩ := ih (i + 1) g hg
      exact ⟨List.mem_cons_of_mem _ h1, h2⟩

/-- C9: if the before-partition contains no pinned student at all, the
integrity checker accepts any after-partition. -/
theorem c9_no_pins_trivial (prev next : List Group)
    (h : ∀ g ∈ prev, ∀ s ∈ g.students, s.locked = false) :
    lockedStayInPlace prev next = true := by
  have hc : (prev.map
      (fun g => dedupFirst ((g.students.filter (fun s => s.locked)).map keyOf))).filter
      (fun ks => !ks.isEmpty) = [] := by
    rw [List.filter_eq_nil_iff]
    intro ks hks
    simp only [List.mem_map] at hks
    obtain ⟨g, hg, rfl⟩ := hks
    have hf : g.students.filter (fun s => s.locked) = [] := by
      rw [List.filter_eq_nil_iff]
      intro s hs hloc
      have := h g hg s hs
      rw [this] at hloc
      exact Bool.false_ne_true hloc
    rw [hf]
    simp [dedupFirst, dedupFirstGo]
  simp only [lockedStayInPlace, hc]
  rfl

/-- Witness for `c9_no_pins_trivial` at a concrete unpinned partition. -/
theorem c9_no_pins_trivial_witness :
    lockedStayInPlace [⟨1, [⟨"A", "X", false⟩], none⟩] [] = true :=
  c9_no_pins_trivial [⟨1, [⟨"A", "X", false⟩], none⟩] [] (by decide)

/-- C6: the builder is a deterministic function of its arguments when an
integer seed is supplied; in particular the ambient randomness stream is
irrelevant, so two calls with identical items, capacity and seed return
identical partitions (same groups, same items, same order). -/
theorem c6_determinism (students : List Student) (groupSize : Nat) (seed : Nat)
    (sys1 sys2 : Nat → Nat) :
    groupStudents students groupSize (some seed) sys1 =
      groupStudents students groupSize (some seed) sys2 := rfl

/-- C5: on a prior partition whose single group holds a pinned cohort of
five items, repartitioning to capacity 4 does not raise: the code returns a
result that keeps the cohort intact in one group of size 5, silently over
capacity, where the specification requires a CapacityError. -/
theorem c5_overfull_cohort_no_error :
    reshuffleRespectingLocksToGroupSize cex5Prev ["X"] 4 (Rng.seeded 0) = Except.ok cex5Out ∧
    cex5Out.map (fun g => g.students.length) = [5, 0] := ⟨rfl, rfl⟩

/-- C4 counterexample: when two cohorts carry the same `(name, program)`
identity, the repartition succeeds but the integrity checker rejects its
result, so the claim fails as universally stated. -/
theorem c4_counterexample :
    reshuffleRespectingLocksToGroupSize cex4Prev ["X"] 1 (Rng.system sysZero 0) =
      Except.ok cex4Out ∧
    lockedStayInPlace cex4Prev cex4Out = false := ⟨rfl, rfl⟩

/-- C8 counterexample: a header with three columns, none of which is a
recognized alias, is not rejected; the parser falls back to columns 0 and 1,
contradicting the claim that any column count other than two is a
missing-header error. -/
theorem c8_counterexample :
    (((strSplit ',' "a,b,c").map (fun s => strLower (strTrim s))).length = 3 ∧
      ((strSplit ',' "a,b,c").map (fun s => strLower (strTrim s))).all
        (fun h => !(nameAliases.contains h) && !(programAliases.contains h)) = true) ∧
    parseCSV "a,b,c\nAlice,CS,x" = Except.ok [⟨"Alice", "CS"⟩] := ⟨⟨rfl, rfl⟩, rfl⟩

/-- C8 amended: when no header column matches an alias, the parser falls
back to column 0 as name and column 1 as category whenever the header has
at least two columns, and reports the missing-header configuration error
only when it has fewer than two. -/
theorem c8_fallback_amended (text headerLine : String) (rows : List String)
    (hsplit : splitLines text = headerLine :: rows)
    (halias : ∀ h ∈ (strSplit ',' headerLine).map (fun s => strLower (strTrim s)),
      h ∉ nameAliases ∧ h ∉ programAliases) :
    (2 ≤ ((strSplit ',' headerLine).map (fun s => strLower (strTrim s))).length →
      parseCSV text =
        (if (parseRows 0 1 rows).isEmpty then Except.error "No students found in CSV"
         else Except.ok (parseRows 0 1 rows))) ∧
    (((strSplit ',' headerLine).map (fun s => strLower (strTrim s))).length < 2 →
      parseCSV text = Except.error "Missing name or program header") := by
  have hn : lastAliasIdx nameAliases
      ((strSplit ',' headerLine).map (fun s => strLower (strTrim s))) = none :=
    lastAliasIdx_eq_none _ _ (fun x hx => (halias x hx).1)
  have hp : lastAliasIdx programAliases
      ((strSplit ',' headerLine).map (fun s => strLower (strTrim s))) = none :=
    lastAliasIdx_eq_none _ _ (fun x hx => (halias x hx).2)
  constructor
  · intro hlen
    simp only [parseCSV, hsplit, hn, hp, if_pos hlen]
  · intro hlen
    simp only [parseCSV, hsplit, hn, hp, if_neg (by omega : ¬ 2 ≤ ((strSplit ',' headerLine).map (fun s => strLower (strTrim s))).length)]

/-- Witness for `c8_fallback_amended` at a concrete three-column header. -/
theorem c8_fallback_amended_witness :
    parseCSV "a,b,c\nAlice,CS,x" =
      (if (parseRows 0 1 ["Alice,CS,x"]).isEmpty then Except.error "No students found in CSV"
       else Except.ok (parseRows 0 1 ["Alice,CS,x"])) :=
  (c8_fallback_amended "a,b,c\nAlice,CS,x" "a,b,c" ["Alice,CS,x"] rfl (by decide)).1 (by decide)

theorem forall₂_map_eq {α β γ : Type} {R : α → β → Prop} {f : β → γ} {g : α → γ}
    (h : ∀ a b, R a b → f b = g a) : ∀ {l₁ : List α} {l₂ : List β}, List.Forall₂ R l₁ l₂ →
    l₂.map f = l₁.map g := by
  intro l₁ l₂ hf
  induction hf with
  | nil => rfl
  | cons hr _ ih => simp only [List.map_cons, ih, h _ _ hr]

theorem stagesPipeline_length (gs n : Nat) (entries : List (String × Bool × List Student))
    (rng2 : Rng) : (stagesPipeline gs n entries rng2).length = n := by
  simp only [stagesPipeline]
  rw [phase3_length, phase2All_length, phase1All_length, List.length_replicate]

theorem stagesPipeline_cap (gs n : Nat) (entries : List (String × Bool × List Student))
    (rng2 : Rng) : ∀ g ∈ stagesPipeline gs n entries rng2, g.length ≤ gs := by
  simp only [stagesPipeline]
  have hlen1 : ((phase1All gs (List.replicate n []) entries).1).length = n := by
    rw [phase1All_length, List.length_replicate]
  refine phase3_cap gs _ _ ?_
  refine phase2All_cap gs n _ _ hlen1 ?_
  refine phase1All_cap gs entries _ ?_
  intro g hg
  rw [List.eq_of_mem_replicate hg]
  simp

theorem stagesPipeline_unlocked (gs n : Nat) (entries : List (String × Bool × List Student))
    (rng2 : Rng) : ∀ g ∈ stagesPipeline gs n entries rng2, ∀ x ∈ g, x.locked = false := by
  have hQ : ∀ (g : List Placement) (x : Placement),
      (∀ y ∈ g, y.locked = false) → x.locked = false → ∀ y ∈ g ++ [x], y.locked = false := by
    intro g x hg hx y hy
    rcases List.mem_append.mp hy with h | h
    · exact hg y h
    · rw [List.mem_singleton] at h
      subst h
      exact hx
  simp only [stagesPipeline]
  have hlen1 : ((phase1All gs (List.replicate n []) entries).1).length = n := by
    rw [phase1All_length, List.length_replicate]
  refine phase3_presG gs _ hQ _ _ ?_
  refine phase2All_presG gs n _ hQ _ _ hlen1 ?_
  refine phase1All_presG gs _ hQ entries _ ?_
  intro g hg
  rw [List.eq_of_mem_replicate hg]
  simp

theorem stagesPipeline_sum (gs n : Nat) (entries : List (String × Bool × List Student))
    (rng2 : Rng) (hn : (entries.map (fun e => e.2.2.length)).sum ≤ n * gs) :
    ((stagesPipeline gs n entries rng2).map List.length).sum
      = (entries.map (fun e => e.2.2.length)).sum := by
  simp only [stagesPipeline]
  have h0 : (((List.replicate n ([] : List Placement)).map List.length)).sum = 0 := by
    simp
  have hlen1 : ((phase1All gs (List.replicate n []) entries).1).length = n := by
    rw [phase1All_length, List.length_replicate]
  have h1 := phase1All_sum gs entries (List.replicate n [])
  have h2 := phase2All_sum gs n (phase1All gs (List.replicate n []) entries).2
    (phase1All gs (List.replicate n []) entries).1 hlen1
  have h3 := foldr_append_length (fun e : String × Bool × List Student => e.2.2)
    (phase2All gs n (phase1All gs (List.replicate n []) entries).1
      (phase1All gs (List.replicate n []) entries).2).2
  have h4 := shuffleList_length
    ((phase2All gs n (phase1All gs (List.replicate n []) entries).1
      (phase1All gs (List.replicate n []) entries).2).2.foldr (fun e acc => e.2.2 ++ acc) []) rng2
  have hlen2 : ((phase2All gs n (phase1All gs (List.replicate n []) entries).1
      (phase1All gs (List.replicate n []) entries).2).1).length = n := by
    rw [phase2All_length]
    exact hlen1
  have h5 := phase3_sum gs
    ((shuffleList ((phase2All gs n (phase1All gs (List.replicate n []) entries).1
      (phase1All gs (List.replicate n []) entries).2).2.foldr (fun e acc => e.2.2 ++ acc) []) rng2).1)
    ((phase2All gs n (phase1All gs (List.replicate n []) entries).1
      (phase1All gs (List.replicate n []) entries).2).1) ?_
  · rw [h5, h4, h3]
    omega
  · rw [h4, h3, hlen2]
    omega

theorem buildEntries_sum (students : List Student) (n : Nat) (rng0 : Rng) :
    (((shuffleAll rng0 ((sortStrings (dedupFirst (students.map (fun s => s.program)))).map
        (fun p => (p, students.filter (fun s => s.program == p))))).1.map
      (fun e => (e.1, decide (n ≤ e.2.length), e.2))).map
        (fun e : String × Bool × List Student => e.2.2.length)).sum
      = students.length := by
  have hnd : (sortStrings (dedupFirst (students.map (fun s => s.program)))).Nodup :=
    (sortStrings_perm _).nodup_iff.mpr (dedupFirst_nodup _)
  have hcov : ∀ s ∈ students, s.program ∈ sortStrings (dedupFirst (students.map (fun s => s.program))) := by
    intro s hs
    rw [(sortStrings_perm _).mem_iff, dedupFirst_mem]
    exact List.mem_map_of_mem _ hs
  have hsh := shuffleAll_spec
    ((sortStrings (dedupFirst (students.map (fun s => s.program)))).map
      (fun p => (p, students.filter (fun s => s.program == p)))) rng0
  have hlens := forall₂_map_eq (f := fun e : String × List Student => e.2.length)
    (g := fun e : String × List Student => e.2.length)
    (fun a b hr => by simpa using hr.2.1) hsh
  rw [List.map_map]
  have : ((fun e : String × Bool × List Student => e.2.2.length) ∘
      (fun e : String × List Student => (e.1, decide (n ≤ e.2.length), e.2)))
      = fun e : String × List Student => e.2.length := rfl
  rw [this, hlens, List.map_map]
  have h2 : ((fun e : String × List Student => e.2.length) ∘
      (fun p => (p, students.filter (fun s => s.program == p))))
      = fun p => (students.filter (fun s => s.program == p)).length := rfl
  rw [h2]
  exact keysum (fun s => s.program) _ students hnd hcov

theorem length_ne_zero_of_ne_nil {α : Type} {l : List α} (h : l ≠ []) : l.length ≠ 0 := by
  intro h0
  exact h (List.length_eq_zero.mp h0)

theorem groupStudents_eq (students : List Student) (gs : Nat) (seed : Option Nat)
    (sys : Nat → Nat) (hgs : gs ≠ 0) (hne : students.length ≠ 0) :
    groupStudents students gs seed sys = Except.ok
      { groupSize := gs,
        numGroups := (buildCore students gs (mkRng seed sys)).2.1,
        programs := (buildCore students gs (mkRng seed sys)).1,
        groups := withWarnings (buildCore students gs (mkRng seed sys)).1
          (buildCore students gs (mkRng seed sys)).2.2 } := by
  simp [groupStudents, hgs, hne]

/-- C2: every group built by `groupStudents` holds at most `groupSize`
students: each push in every phase is guarded by a capacity test. -/
theorem c2_capacity (students : List Student) (gs : Nat) (seed : Option Nat)
    (sys : Nat → Nat) (r : BuildResult) (hne : students ≠ []) (hgs : 0 < gs)
    (hok : groupStudents students gs seed sys = Except.ok r) :
    ∀ g ∈ r.groups, g.students.length ≤ gs := by
  rw [groupStudents_eq students gs seed sys (by omega) (length_ne_zero_of_ne_nil hne)] at hok
  injection hok with hok
  subst hok
  intro g hg
  obtain ⟨hmem, _⟩ := withWarningsGo_missing _ _ 0 g hg
  revert hmem
  simp only [buildCore]
  intro hmem
  exact stagesPipeline_cap gs _ _ _ g.students hmem

/-- Witness for `c2_capacity` on a one-student roster at capacity 1. -/
theorem c2_capacity_witness :
    (⟨1, [⟨"A", "X", false⟩], none⟩ : Group).students.length ≤ 1 :=
  c2_capacity ws1 1 none sysZero ws1Res (by decide) (by decide) rfl
    ⟨1, [⟨"A", "X", false⟩], none⟩ (by decide)

/-- C10: every placement in a freshly built partition carries
`locked = false`; the builder never pins an item. -/
theorem c10_unlocked_fresh (students : List Student) (gs : Nat) (seed : Option Nat)
    (sys : Nat → Nat) (r : BuildResult) (hne : students ≠ []) (hgs : 0 < gs)
    (hok : groupStudents students gs seed sys = Except.ok r) :
    ∀ g ∈ r.groups, ∀ x ∈ g.students, x.locked = false := by
  rw [groupStudents_eq students gs seed sys (by omega) (length_ne_zero_of_ne_nil hne)] at hok
  injection hok with hok
  subst hok
  intro g hg
  obtain ⟨hmem, _⟩ := withWarningsGo_missing _ _ 0 g hg
  revert hmem
  simp only [buildCore]
  intro hmem
  exact stagesPipeline_unlocked gs _ _ _ g.students hmem

/-- Witness for `c10_unlocked_fresh` on a one-student roster. -/
theorem c10_unlocked_fresh_witness : (⟨"A", "X", false⟩ : Placement).locked = false :=
  c10_unlocked_fresh ws1 1 none sysZero ws1Res (by decide) (by decide) rfl
    ⟨1, [⟨"A", "X", false⟩], none⟩ (by decide) ⟨"A", "X", false⟩ (by decide)

theorem nodup_subset_length {l₁ l₂ : List String} (h : l₁.Nodup) (hs : l₁ ⊆ l₂) :
    l₁.length ≤ l₂.length := by
  classical
  calc l₁.length = l₁.toFinset.card := (List.toFinset_card_of_nodup h).symm
    _ ≤ l₂.toFinset.card := Finset.card_le_card (fun x hx => by
        rw [List.mem_toFinset] at hx ⊢
        exact hs hx)
    _ ≤ l₂.length := l₂.toFinset_card_le

/-- C7: when there are more distinct categories than the capacity, the
builder still succeeds (no error is raised), and every group's
`missingPrograms` field lists exactly the categories absent from that
group: it is non-null, and a program is listed in it precisely when it
occurs in the roster but on no student of the group. -/
theorem c7_degraded_coverage (students : List Student) (gs : Nat) (seed : Option Nat)
    (sys : Nat → Nat) (hne : students ≠ []) (hgs : 0 < gs)
    (hcats : gs < (sortStrings (dedupFirst (students.map (fun s => s.program)))).length) :
    ∃ r, groupStudents students gs seed sys = Except.ok r ∧
      ∀ g ∈ r.groups,
        g.missingPrograms ≠ none ∧
        ∀ p, p ∈ g.missingPrograms.getD []
          ↔ (p ∈ r.programs ∧ ∀ x ∈ g.students, x.program ≠ p) := by
  refine ⟨_, groupStudents_eq students gs seed sys (by omega) (length_ne_zero_of_ne_nil hne), ?_⟩
  intro g hg
  obtain ⟨hmem, hmiss⟩ := withWarningsGo_missing _ _ 0 g hg
  have hprog : (buildCore students gs (mkRng seed sys)).1
      = sortStrings (dedupFirst (students.map (fun s => s.program))) := rfl
  have hcap : g.students.length ≤ gs := by
    revert hmem
    simp only [buildCore]
    intro hmem
    exact stagesPipeline_cap gs _ _ _ g.students hmem
  rw [hprog] at hmiss
  have hnd : (sortStrings (dedupFirst (students.map (fun s => s.program)))).Nodup :=
    (sortStrings_perm _).nodup_iff.mpr (dedupFirst_nodup _)
  have hmne : (sortStrings (dedupFirst (students.map (fun s => s.program)))).filter
      (fun p => !((g.students.map (fun s => s.program)).contains p)) ≠ [] := by
    intro h0
    rw [List.filter_eq_nil_iff] at h0
    have hsub : sortStrings (dedupFirst (students.map (fun s => s.program)))
        ⊆ g.students.map (fun s => s.program) := by
      intro p hp
      have := h0 p hp
      simpa using this
    have hlen := nodup_subset_length hnd hsub
    rw [List.length_map] at hlen
    omega
  have hmiss2 : g.missingPrograms
      = some ((sortStrings (dedupFirst (students.map (fun s => s.program)))).filter
        (fun p => !((g.students.map (fun s => s.program)).contains p))) := by
    rw [hmiss, if_neg]
    intro h
    exact hmne (List.isEmpty_iff.mp h)
  constructor
  · rw [hmiss2]
    exact Option.some_ne_none _
  · intro p
    rw [hmiss2]
    simp only [Option.getD_some, List.mem_filter]
    constructor
    · rintro ⟨h1, h2⟩
      refine ⟨h1, ?_⟩
      intro x hx hxp
      have hpm : p ∈ g.students.map (fun s => s.program) := by
        rw [← hxp]
        exact List.mem_map_of_mem _ hx
      simp [hpm] at h2
    · rintro ⟨h1, h2⟩
      refine ⟨h1, ?_⟩
      simp only [List.elem_eq_mem, Bool.not_eq_eq_eq_not, Bool.not_true, decide_eq_false_iff_not]
      intro hpm
      obtain ⟨x, hx, hxp⟩ := List.mem_map.mp hpm
      exact h2 x hx hxp

/-- Witness for `c7_degraded_coverage` with three programs at capacity 2. -/
theorem c7_degraded_coverage_witness :
    ∃ r, groupStudents ws3 2 none sysZero = Except.ok r ∧
      ∀ g ∈ r.groups,
        g.missingPrograms ≠ none ∧
        ∀ p, p ∈ g.missingPrograms.getD []
          ↔ (p ∈ r.programs ∧ ∀ x ∈ g.students, x.program ≠ p) :=
  c7_degraded_coverage ws3 2 none sysZero (by decide) (by decide) (by decide)

theorem forall₂_right_mem {α β : Type} {R : α → β → Prop} :
    ∀ {l₁ : List α} {l₂ : List β}, List.Forall₂ R l₁ l₂ → ∀ b ∈ l₂, ∃ a ∈ l₁, R a b := by
  intro l₁ l₂ h
  induction h with
  | nil => intro b hb; simp at hb
  | cons hr _ ih =>
    intro b hb
    rcases List.mem_cons.mp hb with rfl | hb
    · exact ⟨_, by simp, hr⟩
    · obtain ⟨a, ha, har⟩ := ih b hb
      exact ⟨a, List.mem_cons_of_mem _ ha, har⟩

theorem forall₂_left_mem {α β : Type} {R : α → β → Prop} :
    ∀ {l₁ : List α} {l₂ : List β}, List.Forall₂ R l₁ l₂ → ∀ a ∈ l₁, ∃ b ∈ l₂, R a b := by
  intro l₁ l₂ h
  induction h with
  | nil => intro a ha; simp at ha
  | cons hr _ ih =>
    intro a ha
    rcases List.mem_cons.mp ha with rfl | ha
    · exact ⟨_, by simp, hr⟩
    · obtain ⟨b, hb, hbr⟩ := ih a ha
      exact ⟨b, List.mem_cons_of_mem _ hb, hbr⟩

theorem forall₂_trans {α β γ : Type} {R1 : α → β → Prop} {R2 : β → γ → Prop}
    {R3 : α → γ → Prop} (h : ∀ a b c, R1 a b → R2 b c → R3 a c) :
    ∀ {l₁ : List α} {l₂ : List β} {l₃ : List γ},
    List.Forall₂ R1 l₁ l₂ → List.Forall₂ R2 l₂ l₃ → List.Forall₂ R3 l₁ l₃ := by
  intro l₁ l₂ l₃ h12
  induction h12 generalizing l₃ with
  | nil =>
    intro h23
    cases h23
    exact List.Forall₂.nil
  | cons hr _ ih =>
    intro h23
    cases h23 with
    | cons hr2 hrest2 => exact List.Forall₂.cons (h _ _ _ hr hr2) (ih hrest2)

theorem phase1Go_full (gs : Nat) (p : String) : ∀ (grps : List (List Placement))
    (bk : List Student) (j : Nat),
    (∀ g ∈ grps, g.length = j) → j < gs → grps.length ≤ bk.length →
    (∀ s ∈ bk, s.program = p) →
    List.Forall₂ (fun g g2 => ∃ x : Placement, x.program = p ∧ g2 = g ++ [x])
      grps (phase1Go gs grps bk).1 := by
  intro grps
  induction grps with
  | nil => intro bk j _ _ _ _; exact List.Forall₂.nil
  | cons g rest ih =>
    intro bk j huni hj hlen hprog
    have hg : g.length = j := huni g (by simp)
    have hlt : g.length < gs := by omega
    simp only [phase1Go, if_pos hlt]
    cases hpb : popBack bk with
    | none =>
      exfalso
      unfold popBack at hpb
      cases hl : bk.getLast? with
      | none =>
        rw [List.getLast?_eq_none_iff] at hl
        subst hl
        simp at hlen
      | some y => rw [hl] at hpb; simp at hpb
    | some pr =>
      refine List.Forall₂.cons ⟨⟨pr.1.name, pr.1.program, false⟩, ?_, rfl⟩ ?_
      · exact hprog pr.1 (popBack_mem hpb).1
      · refine ih pr.2 j (fun g2 hg2 => huni g2 (List.mem_cons_of_mem _ hg2)) hj ?_ ?_
        · have := popBack_length hpb
          simp only [List.length_cons] at hlen
          omega
        · intro s hs
          exact hprog s ((popBack_mem hpb).2 s hs)

theorem phase1All_cover (gs : Nat) : ∀ (entries : List (String × Bool × List Student))
    (grps : List (List Placement)) (j : Nat),
    (∀ g ∈ grps, g.length = j) →
    j + entries.length ≤ gs →
    (∀ e ∈ entries, e.2.1 = true ∧ grps.length ≤ e.2.2.length ∧ ∀ s ∈ e.2.2, s.program = e.1) →
    List.Forall₂ (fun g g2 =>
        (∃ ext, g2 = g ++ ext ∧ ∀ e ∈ entries, ∃ x ∈ ext, x.program = e.1)
        ∧ g2.length = j + entries.length)
      grps (phase1All gs grps entries).1 := by
  intro entries
  induction entries with
  | nil =>
    intro grps j huni _ _
    simp only [phase1All]
    rw [List.forall₂_same]
    intro g hg
    refine ⟨⟨[], by simp, by simp⟩, ?_⟩
    simp [huni g hg]
  | cons e rest ih =>
    intro grps j huni hle hents
    obtain ⟨hflag, hblen, hbprog⟩ := hents e (by simp)
    simp only [phase1All, if_pos hflag]
    have h1 := phase1Go_full gs e.1 grps e.2.2 j huni (by simp only [List.length_cons] at hle; omega)
      hblen hbprog
    have huni1 : ∀ g2 ∈ (phase1Go gs grps e.2.2).1, g2.length = j + 1 := by
      intro g2 hg2
      obtain ⟨g, hg, x, _, rfl⟩ := forall₂_right_mem h1 g2 hg2
      simp [huni g hg]
    have hlen1 : ((phase1Go gs grps e.2.2).1).length = grps.length :=
      phase1Go_length gs grps e.2.2
    have hrec := ih (phase1Go gs grps e.2.2).1 (j + 1) huni1
      (by simp only [List.length_cons] at hle; omega) ?_
    · refine forall₂_trans ?_ h1 hrec
      rintro g gmid g2 ⟨x, hxp, rfl⟩ ⟨⟨ext, rfl, hcov⟩, hlen2⟩
      refine ⟨⟨x :: ext, by simp, ?_⟩, ?_⟩
      · intro e2 he2
        rcases List.mem_cons.mp he2 with rfl | he2
        · exact ⟨x, by simp, hxp⟩
        · obtain ⟨y, hy, hyp⟩ := hcov e2 he2
          exact ⟨y, List.mem_cons_of_mem _ hy, hyp⟩
      · simp only [List.length_cons] at hlen2 ⊢
        omega
    · intro e2 he2
      obtain ⟨hf, hl, hp⟩ := hents e2 (List.mem_cons_of_mem _ he2)
      exact ⟨hf, by rw [hlen1]; exact hl, hp⟩

theorem phase1All_flagsTrue (gs : Nat) : ∀ (entries : List (String × Bool × List Student))
    (grps : List (List Placement)),
    (∀ e ∈ entries, e.2.1 = true) → ∀ e ∈ (phase1All gs grps entries).2, e.2.1 = true := by
  intro entries
  induction entries with
  | nil => intro grps _ e he; simp [phase1All] at he
  | cons e0 rest ih =>
    intro grps h e he
    have hf := h e0 (by simp)
    simp only [phase1All, if_pos hf] at he
    rcases List.mem_cons.mp he with rfl | he
    · exact hf
    · exact ih _ (fun e2 he2 => h e2 (List.mem_cons_of_mem _ he2)) e he

theorem phase2All_noop (gs n : Nat) : ∀ (entries : List (String × Bool × List Student))
    (grps : List (List Placement)),
    (∀ e ∈ entries, e.2.1 = true) → phase2All gs n grps entries = (grps, entries) := by
  intro entries
  induction entries with
  | nil => intro grps _; rfl
  | cons e rest ih =>
    intro grps h
    have hf := h e (by simp)
    simp only [phase2All, if_pos hf]
    rw [ih grps (fun e2 he2 => h e2 (List.mem_cons_of_mem _ he2))]

theorem stagesPipeline_cover (gs n : Nat) (entries : List (String × Bool × List Student))
    (rng2 : Rng)
    (hents : ∀ e ∈ entries, e.2.1 = true ∧ n ≤ e.2.2.length ∧ ∀ s ∈ e.2.2, s.program = e.1)
    (hcats : entries.length ≤ gs) :
    ∀ g ∈ stagesPipeline gs n entries rng2, ∀ e ∈ entries, ∃ x ∈ g, x.program = e.1 := by
  simp only [stagesPipeline]
  have hcov := phase1All_cover gs entries (List.replicate n []) 0
    (by intro g hg; rw [List.eq_of_mem_replicate hg]; rfl)
    (by omega)
    (by
      intro e he
      obtain ⟨h1, h2, h3⟩ := hents e he
      exact ⟨h1, by rw [List.length_replicate]; exact h2, h3⟩)
  have h1 : ∀ g ∈ (phase1All gs (List.replicate n []) entries).1,
      ∀ e ∈ entries, ∃ x ∈ g, x.program = e.1 := by
    intro g hg e he
    obtain ⟨g0, _, ⟨ext, rfl, hcov2⟩, _⟩ := forall₂_right_mem hcov g hg
    obtain ⟨x, hx, hxp⟩ := hcov2 e he
    exact ⟨x, List.mem_append.mpr (Or.inr hx), hxp⟩
  have hflags := phase1All_flagsTrue gs entries (List.replicate n [])
    (fun e he => (hents e he).1)
  rw [phase2All_noop gs n (phase1All gs (List.replicate n []) entries).2
    (phase1All gs (List.replicate n []) entries).1 hflags]
  refine phase3_presG gs (fun g => ∀ e ∈ entries, ∃ x ∈ g, x.program = e.1) ?_ _ _ h1
  intro g x hg _ e he
  obtain ⟨y, hy, hyp⟩ := hg e he
  exact ⟨y, List.mem_append.mpr (Or.inl hy), hyp⟩

/-- C3: with at most `capacity` distinct categories, each counting at least
`groupCount` students, the builder gives every group one student of every
category in phase 1, so every `missingPrograms` is null. -/
theorem c3_full_coverage (students : List Student) (gs : Nat) (seed : Option Nat)
    (sys : Nat → Nat) (hne : students ≠ []) (hgs : 0 < gs)
    (hcats : (sortStrings (dedupFirst (students.map (fun s => s.program)))).length ≤ gs)
    (hcount : ∀ p ∈ sortStrings (dedupFirst (students.map (fun s => s.program))),
      ceilDiv students.length gs ≤ (students.filter (fun s => s.program == p)).length) :
    ∃ r, groupStudents students gs seed sys = Except.ok r ∧
      ∀ g ∈ r.groups, g.missingPrograms = none := by
  refine ⟨_, groupStudents_eq students gs seed sys (by omega) (length_ne_zero_of_ne_nil hne), ?_⟩
  intro g hg
  obtain ⟨hmem, hmiss⟩ := withWarningsGo_missing _ _ 0 g hg
  have hprogeq : (buildCore students gs (mkRng seed sys)).1
      = sortStrings (dedupFirst (students.map (fun s => s.program))) := rfl
  rw [hprogeq] at hmiss
  have hcover : ∀ p ∈ sortStrings (dedupFirst (students.map (fun s => s.program))),
      ∃ x ∈ g.students, x.program = p := by
    revert hmem
    simp only [buildCore]
    intro hmem
    intro p hp
    have hsh := shuffleAll_spec
      ((sortStrings (dedupFirst (students.map (fun s => s.program)))).map
        (fun q => (q, students.filter (fun s => s.program == q)))) (mkRng seed sys)
    have hb : (p, students.filter (fun s => s.program == p)) ∈
        (sortStrings (dedupFirst (students.map (fun s => s.program)))).map
          (fun q => (q, students.filter (fun s => s.program == q))) :=
      List.mem_map_of_mem _ hp
    obtain ⟨e0, he0, he0k, _, _⟩ := forall₂_left_mem hsh _ hb
    have hents : ∀ e ∈ (shuffleAll (mkRng seed sys)
        ((sortStrings (dedupFirst (students.map (fun s => s.program)))).map
          (fun q => (q, students.filter (fun s => s.program == q))))).1.map
        (fun e => (e.1, decide (ceilDiv students.length gs ≤ e.2.length), e.2)),
        e.2.1 = true ∧ ceilDiv students.length gs ≤ e.2.2.length
          ∧ ∀ s ∈ e.2.2, s.program = e.1 := by
      intro e he
      obtain ⟨e1, he1, rfl⟩ := List.mem_map.mp he
      obtain ⟨b, hbmem, hbk, hblen, hbsub⟩ := forall₂_right_mem hsh e1 he1
      obtain ⟨q, hq, rfl⟩ := List.mem_map.mp hbmem
      have hlen : ceilDiv students.length gs ≤ e1.2.length := by
        simp only at hblen
        rw [hblen]
        exact hcount q hq
      refine ⟨by simpa using hlen, hlen, ?_⟩
      intro s hs
      have := hbsub s hs
      simp only [List.mem_filter] at this
      rw [hbk]
      exact eq_of_beq this.2
    have hcatlen : ((shuffleAll (mkRng seed sys)
        ((sortStrings (dedupFirst (students.map (fun s => s.program)))).map
          (fun q => (q, students.filter (fun s => s.program == q))))).1.map
        (fun e => (e.1, decide (ceilDiv students.length gs ≤ e.2.length), e.2))).length ≤ gs := by
      rw [List.length_map, ← hsh.length_eq, List.length_map]
      exact hcats
    have hres := stagesPipeline_cover gs (ceilDiv students.length gs) _ _ hents hcatlen
      g.students hmem
    have hein : (e0.1, decide (ceilDiv students.length gs ≤ e0.2.length), e0.2) ∈
        (shuffleAll (mkRng seed sys)
          ((sortStrings (dedupFirst (students.map (fun s => s.program)))).map
            (fun q => (q, students.filter (fun s => s.program == q))))).1.map
          (fun e => (e.1, decide (ceilDiv students.length gs ≤ e.2.length), e.2)) :=
      List.mem_map_of_mem _ he0
    obtain ⟨x, hx, hxp⟩ := hres _ hein
    refine ⟨x, hx, ?_⟩
    rw [hxp]
    simp only at he0k
    rw [he0k]
  rw [hmiss, if_pos]
  rw [List.isEmpty_iff, List.filter_eq_nil_iff]
  intro p hp
  obtain ⟨x, hx, hxp⟩ := hcover p hp
  have hpm : p ∈ g.students.map (fun s => s.program) := by
    rw [← hxp]
    exact List.mem_map_of_mem _ hx
  simp [hpm]

/-- Witness for `c3_full_coverage`: two students of one program, capacity 2. -/
theorem c3_full_coverage_witness :
    ∃ r, groupStudents ws2 2 none sysZero = Except.ok r ∧
      ∀ g ∈ r.groups, g.missingPrograms = none :=
  c3_full_coverage ws2 2 none sysZero (by decide) (by decide) (by decide) (by decide)

theorem getD_set_self2 {α : Type} {l : List α} {j : Nat} {d v : α} (h : j < l.length) :
    (l.set j v).getD j d = v := by
  rw [List.getD_eq_getElem?_getD, List.getElem?_set_self (by simpa using h)]
  rfl

theorem getD_set_ne2 {α : Type} {l : List α} {i j : Nat} {d v : α} (h : j ≠ i) :
    (l.set j v).getD i d = l.getD i d := by
  rw [List.getD_eq_getElem?_getD, List.getElem?_set_ne h, ← List.getD_eq_getElem?_getD]

theorem placeLeft_length (gs : Nat) (ord : List Nat) : ∀ (left : List Placement)
    (res : List (List Placement)), (placeLeft gs ord res left).length = res.length := by
  intro left
  induction left with
  | nil => intro res; rfl
  | cons s rest ih =>
    intro res
    simp only [placeLeft]
    split
    · rw [ih, List.length_set]
    · rfl

theorem placeLeft_filter_locked (gs : Nat) (ord : List Nat) : ∀ (left : List Placement)
    (res : List (List Placement)) (i : Nat),
    ((placeLeft gs ord res left).getD i []).filter (fun s => s.locked)
      = (res.getD i []).filter (fun s => s.locked) := by
  intro left
  induction left with
  | nil => intro res i; rfl
  | cons s rest ih =>
    intro res i
    simp only [placeLeft]
    split
    · rename_i j hj
      rw [ih]
      by_cases hij : i = j
      · subst hij
        by_cases hlt : i < res.length
        · rw [getD_set_self2 hlt, List.filter_append]
          simp
        · rw [List.set_eq_of_length_le (by omega)]
      · rw [getD_set_ne2 (fun h => hij h.symm)]
    · rfl

theorem placeLeft_sum (gs : Nat) (ord : List Nat) : ∀ (left : List Placement)
    (res : List (List Placement)),
    (∀ i, i ∈ ord ↔ i < res.length) →
    (res.map List.length).sum + left.length ≤ res.length * gs →
    ((placeLeft gs ord res left).map List.length).sum
      = (res.map List.length).sum + left.length := by
  intro left
  induction left with
  | nil => intro res _ _; simp [placeLeft]
  | cons s rest ih =>
    intro res hord hbound
    simp only [placeLeft]
    split
    · rename_i i hf
      have hi := List.mem_of_find?_eq_some hf
      have hilt : i < res.length := (hord i).mp hi
      have hroom0 := List.find?_some hf
      have hroom : (res.getD i []).length < gs := of_decide_eq_true hroom0
      have hset : res.set i (res.getD i []
          ++ [{ name := s.name, program := s.program, locked := false }])
          = pushAt res i { name := s.name, program := s.program, locked := false } := rfl
      rw [hset, ih _ ?_ ?_]
      · rw [pushAt_sum _ res i hilt]
        simp only [List.length_cons]
        omega
      · intro j
        rw [pushAt_length]
        exact hord j
      · rw [pushAt_sum _ res i hilt, pushAt_length]
        simp only [List.length_cons] at hbound ⊢
        omega
    · rename_i hf
      exfalso
      rw [List.find?_eq_none] at hf
      have hall : ∀ g ∈ res, gs ≤ g.length := by
        intro g hg
        obtain ⟨i, hi, rfl⟩ := List.mem_iff_getElem.mp hg
        have h2 := hf i ((hord i).mpr hi)
        rw [decide_eq_true_iff] at h2
        push_neg at h2
        have hgd : res.getD i [] = res[i] := by
          rw [List.getD_eq_getElem?_getD, List.getElem?_eq_getElem hi]
          rfl
        rw [hgd] at h2
        exact h2
      have hge := sum_ge_of_allFull gs res hall
      simp only [List.length_cons] at hbound
      omega

theorem qget_some {qs : List (String × List Placement)} {p : String}
    {e : String × List Placement} (h : qs.find? (fun e2 => e2.1 == p) = some e) :
    qget qs p = e.2 := by
  unfold qget
  rw [h]

theorem qget_none {qs : List (String × List Placement)} {p : String}
    (h : qs.find? (fun e2 => e2.1 == p) = none) : qget qs p = [] := by
  unfold qget
  rw [h]

theorem qset_keys (qs : List (String × List Placement)) (p : String) (l : List Placement) :
    (qset qs p l).map (fun e => e.1) = qs.map (fun e => e.1) := by
  unfold qset
  rw [List.map_map]
  apply List.map_congr_left
  intro e _
  by_cases h : e.1 = p <;> simp [h]

theorem qset_of_no_key {qs : List (String × List Placement)} {p : String}
    (h : ∀ e ∈ qs, (e.1 == p) = false) (l : List Placement) : qset qs p l = qs := by
  unfold qset
  conv_rhs => rw [← List.map_id qs]
  apply List.map_congr_left
  intro e he
  rw [h e he]
  rfl

theorem qsum_qset {qs : List (String × List Placement)} {p : String}
    {e : String × List Placement} (l : List Placement) :
    (qs.map (fun e => e.1)).Nodup → qs.find? (fun e2 => e2.1 == p) = some e →
    ((qset qs p l).map (fun e => e.2.length)).sum + e.2.length
      = (qs.map (fun e => e.2.length)).sum + l.length := by
  induction qs with
  | nil => intro _ h; simp at h
  | cons q rest ih =>
    intro hnd h
    rw [List.map_cons, List.nodup_cons] at hnd
    by_cases hq : (q.1 == p) = true
    · rw [List.find?_cons_of_pos (p := fun e2 => e2.1 == p) rest hq] at h
      injection h with h
      subst h
      have hrest : qset rest p l = rest := by
        refine qset_of_no_key (fun e2 he2 => ?_) l
        have hne : e2.1 ≠ q.1 := by
          intro he
          exact hnd.1 (he ▸ List.mem_map_of_mem _ he2)
        have hqp : q.1 = p := eq_of_beq hq
        simp [hqp ▸ hne]
      unfold qset
      simp only [List.map_cons, hq, if_pos, List.sum_cons]
      have : (rest.map (fun e2 => if e2.1 == p then (e2.1, l) else e2)) = rest := hrest
      rw [this]
      omega
    · rw [List.find?_cons_of_neg (p := fun e2 => e2.1 == p) rest (by simpa using hq)] at h
      have hrec := ih hnd.2 h
      unfold qset
      have hqf : (q.1 == p) = false := by simpa using hq
      simp only [List.map_cons, hqf, Bool.false_eq_true, if_false, List.sum_cons]
      unfold qset at hrec
      omega

theorem fillGroup_spec (gs : Nat) : ∀ (ps : List String) (g : List Placement)
    (qs : List (String × List Placement)), (qs.map (fun e => e.1)).Nodup →
    (∃ ext, (fillGroup gs g qs ps).1 = g ++ ext ∧ ∀ x ∈ ext, x.locked = false)
    ∧ ((fillGroup gs g qs ps).2).map (fun e => e.1) = qs.map (fun e => e.1)
    ∧ ((fillGroup gs g qs ps).1).length
        + (((fillGroup gs g qs ps).2).map (fun e => e.2.length)).sum
      = g.length + (qs.map (fun e => e.2.length)).sum := by
  intro ps
  induction ps with
  | nil =>
    intro g qs _
    exact ⟨⟨[], by simp [fillGroup], fun x hx => absurd hx (by simp)⟩, rfl, rfl⟩
  | cons p ps ih =>
    intro g qs hnd
    simp only [fillGroup]
    split
    · exact ⟨⟨[], by simp, fun x hx => absurd hx (by simp)⟩, rfl, rfl⟩
    · cases hpb : popBack (qget qs p) with
      | none => exact ih g qs hnd
      | some pr =>
        have hfind : ∃ e, qs.find? (fun e2 => e2.1 == p) = some e := by
          cases hf : qs.find? (fun e2 => e2.1 == p) with
          | none =>
            rw [qget_none hf] at hpb
            simp [popBack] at hpb
          | some e => exact ⟨e, rfl⟩
        obtain ⟨e, hf⟩ := hfind
        have hq : qget qs p = e.2 := qget_some hf
        rw [hq] at hpb
        have hlen := popBack_length hpb
        have hkeys := qset_keys qs p pr.2
        have hnd2 : ((qset qs p pr.2).map (fun e => e.1)).Nodup := by
          rw [hkeys]; exact hnd
        obtain ⟨⟨ext, hext, hextl⟩, hk, hsum⟩ := ih
          (g ++ [{ name := pr.1.name, program := pr.1.program, locked := false }])
          (qset qs p pr.2) hnd2
        have hqs := qsum_qset (e := e) pr.2 hnd hf
        refine ⟨⟨{ name := pr.1.name, program := pr.1.program, locked := false } :: ext, ?_, ?_⟩,
          ?_, ?_⟩
        · rw [hext, List.append_assoc]
          rfl
        · intro x hx
          rcases List.mem_cons.mp hx with rfl | hx
          · rfl
          · exact hextl x hx
        · rw [hk, hkeys]
        · rw [hsum]
          simp only [List.length_append, List.length_cons, List.length_nil]
          omega

theorem fillAllGo_spec (gs : Nat) (enough : List String) : ∀ (res : List (List Placement))
    (qs : List (String × List Placement)), (qs.map (fun e => e.1)).Nodup →
    List.Forall₂ (fun g g2 => ∃ ext, g2 = g ++ ext ∧ ∀ x ∈ ext, x.locked = false)
      res (fillAllGo gs enough res qs).1
    ∧ ((fillAllGo gs enough res qs).2).map (fun e => e.1) = qs.map (fun e => e.1)
    ∧ (((fillAllGo gs enough res qs).1).map List.length).sum
        + (((fillAllGo gs enough res qs).2).map (fun e => e.2.length)).sum
      = (res.map List.length).sum + (qs.map (fun e => e.2.length)).sum := by
  intro res
  induction res with
  | nil =>
    intro qs _
    exact ⟨List.Forall₂.nil, rfl, rfl⟩
  | cons g rest ih =>
    intro qs hnd
    simp only [fillAllGo]
    obtain ⟨⟨ext, hext, hextl⟩, hk, hsum⟩ := fillGroup_spec gs
      (enough.filter (fun p => !((g.map (fun s => s.program)).contains p))) g qs hnd
    have hnd2 : (((fillGroup gs g qs
        (enough.filter (fun p => !((g.map (fun s => s.program)).contains p)))).2).map
        (fun e => e.1)).Nodup := by
      rw [hk]; exact hnd
    obtain ⟨hF, hK, hS⟩ := ih _ hnd2
    refine ⟨List.Forall₂.cons ⟨ext, hext, hextl⟩ hF, hK.trans hk, ?_⟩
    simp only [List.map_cons, List.sum_cons]
    rw [hext] at hsum
    simp only [List.length_append] at hsum
    rw [hext]
    simp only [List.length_append]
    omega

theorem fillAllGo_length (gs : Nat) (enough : List String) : ∀ (res : List (List Placement))
    (qs : List (String × List Placement)),
    ((fillAllGo gs enough res qs).1).length = res.length := by
  intro res
  induction res with
  | nil => intro qs; rfl
  | cons g rest ih =>
    intro qs
    simp only [fillAllGo, List.length_cons, ih]

theorem forall₂_filter_locked : ∀ {l₁ l₂ : List (List Placement)},
    List.Forall₂ (fun g g2 => ∃ ext, g2 = g ++ ext ∧ ∀ x ∈ ext, x.locked = false) l₁ l₂ →
    ∀ i, (l₂.getD i []).filter (fun s => s.locked)
      = (l₁.getD i []).filter (fun s => s.locked) := by
  intro l₁ l₂ h
  induction h with
  | nil => intro i; rfl
  | cons hr _ ih =>
    intro i
    cases i with
    | zero =>
      obtain ⟨ext, rfl, hext⟩ := hr
      simp only [List.getD_cons_zero, List.filter_append]
      have hf : ext.filter (fun s => s.locked) = [] := by
        rw [List.filter_eq_nil_iff]
        intro x hx
        rw [hext x hx]
        simp
      rw [hf, List.append_nil]
    | succ j => simpa using ih j

theorem getD_map_map {α β : Type} (g : α → β) : ∀ (l : List (List α)) (i : Nat),
    (l.map (fun c => c.map g)).getD i [] = (l.getD i []).map g := by
  intro l
  induction l with
  | nil => intro i; cases i <;> rfl
  | cons c rest ih =>
    intro i
    cases i with
    | zero => rfl
    | succ j => simpa using ih j

theorem getD_replicate_nil {α : Type} : ∀ (m i : Nat),
    ((List.replicate m ([] : List α)).getD i []) = [] := by
  intro m
  induction m with
  | zero => intro i; cases i <;> rfl
  | succ k ih =>
    intro i
    cases i with
    | zero => rfl
    | succ j =>
      rw [List.replicate_succ, List.getD_cons_succ]
      exact ih j

theorem getD_append_replicate_nil {α : Type} : ∀ (A : List (List α)) (m i : Nat),
    ((A ++ List.replicate m ([] : List α)).getD i []) = A.getD i [] := by
  intro A
  induction A with
  | nil =>
    intro m i
    simp only [List.nil_append, getD_replicate_nil]
    cases i <;> rfl
  | cons c rest ih =>
    intro m i
    cases i with
    | zero => rfl
    | succ j => simpa using ih m j

theorem sum_map_add {α : Type} (f h : α → Nat) : ∀ l : List α,
    (l.map f).sum + (l.map h).sum = (l.map (fun x => f x + h x)).sum := by
  intro l
  induction l with
  | nil => rfl
  | cons x rest ih =>
    simp only [List.map_cons, List.sum_cons]
    omega

theorem sum_filter_nonempty {α : Type} : ∀ l : List (List α),
    ((l.filter (fun c => !c.isEmpty)).map List.length).sum = (l.map List.length).sum := by
  intro l
  induction l with
  | nil => rfl
  | cons c rest ih =>
    by_cases hc : c.isEmpty
    · have hlen : c.length = 0 := by
        rw [List.isEmpty_iff] at hc
        simp [hc]
      have hb : (!c.isEmpty) = false := by rw [hc]; rfl
      simp only [List.filter_cons, hb, Bool.false_eq_true, if_false, List.map_cons,
        List.sum_cons, ih, hlen]
      omega
    · have hb : (!c.isEmpty) = true := by
        cases h2 : c.isEmpty
        · rfl
        · exact absurd h2 hc
      simp only [List.filter_cons, hb, if_true, List.map_cons, List.sum_cons, ih]

theorem foldr_filter_length (p : Placement → Bool) : ∀ groups : List Group,
    ((groups.foldr (fun g acc => g.students ++ acc) []).filter p).length
      = (groups.map (fun g => (g.students.filter p).length)).sum := by
  intro groups
  induction groups with
  | nil => rfl
  | cons g rest ih =>
    simp only [List.foldr_cons, List.filter_append, List.length_append, List.map_cons,
      List.sum_cons, ih]

theorem reshuffleCore_length (gs target : Nat) (enough : List String)
    (cohorts : List (List Placement)) (pool : List Placement) (rng0 : Rng)
    (hk : cohorts.length ≤ target) :
    (reshuffleCore gs target enough cohorts pool rng0).length = target := by
  simp only [reshuffleCore]
  rw [placeLeft_length, fillAllGo_length]
  simp only [List.length_append, List.length_map, List.length_replicate]
  omega

theorem queues_keys_eq (pool : List Placement) :
    (((dedupFirst (pool.map (fun s => s.program))).map
      (fun p => (p, pool.filter (fun s => s.program == p)))).map (fun e => e.1))
      = dedupFirst (pool.map (fun s => s.program)) := by
  rw [List.map_map]
  exact List.map_id _

theorem queues_sum_eq (pool : List Placement) :
    (((dedupFirst (pool.map (fun s => s.program))).map
      (fun p => (p, pool.filter (fun s => s.program == p)))).map (fun e => e.2.length)).sum
      = pool.length := by
  rw [List.map_map]
  refine keysum (fun s => s.program) _ pool (dedupFirst_nodup _) ?_
  intro s hs
  rw [dedupFirst_mem]
  exact List.mem_map_of_mem _ hs

theorem reshuffleCore_sum (gs target : Nat) (enough : List String)
    (cohorts : List (List Placement)) (pool : List Placement) (rng0 : Rng)
    (hk : cohorts.length ≤ target)
    (hbound : (cohorts.map List.length).sum + pool.length ≤ target * gs) :
    ((reshuffleCore gs target enough cohorts pool rng0).map List.length).sum
      = (cohorts.map List.length).sum + pool.length := by
  simp only [reshuffleCore]
  have hshq := shuffleAll_spec
    ((dedupFirst (pool.map (fun s => s.program))).map
      (fun p => (p, pool.filter (fun s => s.program == p)))) rng0
  have hkeys : ((shuffleAll rng0 ((dedupFirst (pool.map (fun s => s.program))).map
      (fun p => (p, pool.filter (fun s => s.program == p))))).1.map (fun e => e.1))
      = dedupFirst (pool.map (fun s => s.program)) := by
    rw [forall₂_map_eq (f := fun e : String × List Placement => e.1)
      (g := fun e : String × List Placement => e.1) (fun a b hr => by simpa using hr.1) hshq]
    exact queues_keys_eq pool
  have hqsum : ((shuffleAll rng0 ((dedupFirst (pool.map (fun s => s.program))).map
      (fun p => (p, pool.filter (fun s => s.program == p))))).1.map
      (fun e => e.2.length)).sum = pool.length := by
    rw [forall₂_map_eq (f := fun e : String × List Placement => e.2.length)
      (g := fun e : String × List Placement => e.2.length)
      (fun a b hr => by simpa using hr.2.1) hshq]
    exact queues_sum_eq pool
  have hnd : ((shuffleAll rng0 ((dedupFirst (pool.map (fun s => s.program))).map
      (fun p => (p, pool.filter (fun s => s.program == p))))).1.map (fun e => e.1)).Nodup := by
    rw [hkeys]
    exact dedupFirst_nodup _
  obtain ⟨hF, _, hS⟩ := fillAllGo_spec gs enough
    (cohorts.map (fun c : List Placement => c.map
      (fun s : Placement => ({ name := s.name, program := s.program, locked := true } : Placement)))
      ++ List.replicate (target - cohorts.length) []) _ hnd
  have hr0sum : ((cohorts.map (fun c : List Placement => c.map
      (fun s : Placement => ({ name := s.name, program := s.program, locked := true } : Placement)))
      ++ List.replicate (target - cohorts.length) []).map List.length).sum
      = (cohorts.map List.length).sum := by
    rw [List.map_append, List.sum_append, List.map_map]
    have h2 : ((List.replicate (target - cohorts.length) ([] : List Placement)).map
        List.length).sum = 0 := by
      simp
    rw [h2, Nat.add_zero]
    congr 1
    apply List.map_congr_left
    intro c _
    simp [Function.comp]
  have hr0len : ((cohorts.map (fun c : List Placement => c.map
      (fun s : Placement => ({ name := s.name, program := s.program, locked := true } : Placement)))
      ++ List.replicate (target - cohorts.length) []).length) = target := by
    simp only [List.length_append, List.length_map, List.length_replicate]
    omega
  have hreslen := fillAllGo_length gs enough
    (cohorts.map (fun c : List Placement => c.map
      (fun s : Placement => ({ name := s.name, program := s.program, locked := true } : Placement)))
      ++ List.replicate (target - cohorts.length) [])
    ((shuffleAll rng0 ((dedupFirst (pool.map (fun s => s.program))).map
      (fun p => (p, pool.filter (fun s => s.program == p))))).1)
  have hlsum := foldr_append_length (fun e : String × List Placement => e.2)
    ((fillAllGo gs enough
      (cohorts.map (fun c : List Placement => c.map
        (fun s : Placement => ({ name := s.name, program := s.program, locked := true } : Placement)))
        ++ List.replicate (target - cohorts.length) [])
      ((shuffleAll rng0 ((dedupFirst (pool.map (fun s => s.program))).map
        (fun p => (p, pool.filter (fun s => s.program == p))))).1)).2)
  have hshl := shuffleList_length
    ((fillAllGo gs enough
      (cohorts.map (fun c : List Placement => c.map
        (fun s : Placement => ({ name := s.name, program := s.program, locked := true } : Placement)))
        ++ List.replicate (target - cohorts.length) [])
      ((shuffleAll rng0 ((dedupFirst (pool.map (fun s => s.program))).map
        (fun p => (p, pool.filter (fun s => s.program == p))))).1)).2.foldr
      (fun e acc => e.2 ++ acc) [])
    ((shuffleAll rng0 ((dedupFirst (pool.map (fun s => s.program))).map
      (fun p => (p, pool.filter (fun s => s.program == p))))).2)
  rw [placeLeft_sum]
  · rw [hshl, hlsum]
    rw [hr0sum] at hS
    omega
  · intro i
    rw [hreslen, hr0len]
    constructor
    · intro hi
      have h2 := (sortByLe_perm _ (List.range target)).mem_iff.mp hi
      rw [List.mem_range] at h2
      exact h2
    · intro hi
      rw [(sortByLe_perm _ (List.range target)).mem_iff, List.mem_range]
      exact hi
  · rw [hshl, hlsum, hreslen, hr0len]
    rw [hr0sum] at hS
    omega

theorem reshuffleCore_locked (gs target : Nat) (enough : List String)
    (cohorts : List (List Placement)) (pool : List Placement) (rng0 : Rng) (i : Nat) :
    ((reshuffleCore gs target enough cohorts pool rng0).getD i []).filter (fun s => s.locked)
      = (cohorts.getD i []).map
        (fun s : Placement => ({ name := s.name, program := s.program, locked := true } : Placement)) := by
  simp only [reshuffleCore]
  rw [placeLeft_filter_locked]
  have hshq := shuffleAll_spec
    ((dedupFirst (pool.map (fun s => s.program))).map
      (fun p => (p, pool.filter (fun s => s.program == p)))) rng0
  have hnd : ((shuffleAll rng0 ((dedupFirst (pool.map (fun s => s.program))).map
      (fun p => (p, pool.filter (fun s => s.program == p))))).1.map (fun e => e.1)).Nodup := by
    rw [forall₂_map_eq (f := fun e : String × List Placement => e.1)
      (g := fun e : String × List Placement => e.1) (fun a b hr => by simpa using hr.1) hshq,
      queues_keys_eq pool]
    exact dedupFirst_nodup _
  obtain ⟨hF, _, _⟩ := fillAllGo_spec gs enough
    (cohorts.map (fun c : List Placement => c.map
      (fun s : Placement => ({ name := s.name, program := s.program, locked := true } : Placement)))
      ++ List.replicate (target - cohorts.length) []) _ hnd
  rw [forall₂_filter_locked hF i, getD_append_replicate_nil, getD_map_map]
  rw [List.filter_eq_self.mpr]
  intro x hx
  obtain ⟨s, _, rfl⟩ := List.mem_map.mp hx
  rfl

theorem groups_sizes_sum (programs : List String) (grps : List (List Placement)) :
    ((withWarnings programs grps).map (fun g => g.students.length)).sum
      = (grps.map List.length).sum := by
  calc ((withWarnings programs grps).map (fun g => g.students.length)).sum
      = (((withWarnings programs grps).map (fun g => g.students)).map List.length).sum := by
        rw [List.map_map]
        rfl
    _ = (grps.map List.length).sum := by rw [withWarnings_students]

theorem prev_split_sum (prev : List Group) :
    ((((prev.map (fun g => g.students.filter (fun s => s.locked))).filter
        (fun l => !l.isEmpty)).map List.length).sum)
      + (((prev.foldr (fun g acc => g.students ++ acc) []).filter (fun s => !s.locked)).map
          (fun s => ({ name := s.name, program := s.program, locked := false } : Placement))).length
      = (prev.map (fun g => g.students.length)).sum := by
  rw [List.length_map, sum_filter_nonempty, List.map_map,
    foldr_filter_length (fun s => !s.locked), sum_map_add]
  congr 1
  apply List.map_congr_left
  intro g _
  exact filter_length_split (fun s => s.locked) g.students

/-- C1: conservation of items.  For every non-empty roster and positive
capacity, the group sizes of a successful build sum to the roster size;
and every successful repartition returns groups whose sizes sum to the
total number of students of the prior partition. -/
theorem c1_conservation (students : List Student) (gs : Nat) (seed : Option Nat)
    (sys : Nat → Nat) (r : BuildResult)
    (prev : List Group) (programs : List String) (gs2 : Nat) (rng2 : Rng) (next : List Group)
    (hne : students ≠ []) (hgs : 0 < gs)
    (hok : groupStudents students gs seed sys = Except.ok r)
    (hgs2 : 0 < gs2)
    (hok2 : reshuffleRespectingLocksToGroupSize prev programs gs2 rng2 = Except.ok next) :
    ((r.groups.map (fun g => g.students.length)).sum = students.length)
    ∧ ((next.map (fun g => g.students.length)).sum
        = (prev.map (fun g => g.students.length)).sum) := by
  constructor
  · rw [groupStudents_eq students gs seed sys (by omega) (length_ne_zero_of_ne_nil hne)] at hok
    injection hok with hok
    subst hok
    refine (groups_sizes_sum (buildCore students gs (mkRng seed sys)).1
      (buildCore students gs (mkRng seed sys)).2.2).trans ?_
    simp only [buildCore]
    rw [stagesPipeline_sum]
    · exact buildEntries_sum students (ceilDiv students.length gs) (mkRng seed sys)
    · rw [buildEntries_sum students (ceilDiv students.length gs) (mkRng seed sys)]
      exact ceilDiv_mul_ge students.length gs hgs
  · simp only [reshuffleRespectingLocksToGroupSize] at hok2
    split at hok2
    · exact Except.noConfusion hok2
    · rename_i hcond
      injection hok2 with hok2
      subst hok2
      refine (groups_sizes_sum programs _).trans ?_
      rw [reshuffleCore_sum]
      · exact prev_split_sum prev
      · omega
      · rw [prev_split_sum]
        have h1 := ceilDiv_mul_ge ((prev.map (fun g => g.students.length)).sum) gs2 hgs2
        have h2 : ceilDiv ((prev.map (fun g => g.students.length)).sum) gs2
            ≤ max 1 (ceilDiv ((prev.map (fun g => g.students.length)).sum) gs2) :=
          Nat.le_max_right _ _
        have h3 := Nat.mul_le_mul_right gs2 h2
        omega

/-- Witness for `c1_conservation`: a one-student build at capacity 1, and
a repartition of one two-student group (one pinned) at capacity 1. -/
theorem c1_conservation_witness :
    (ws1Res.groups.map (fun g => g.students.length)).sum = ws1.length
    ∧ (w4Out.map (fun g => g.students.length)).sum
        = (w4Prev.map (fun g => g.students.length)).sum :=
  c1_conservation ws1 1 none sysZero ws1Res w4Prev ["X"] 1 (Rng.system sysZero 0) w4Out
    (by decide) (by decide) rfl (by decide) rfl

theorem mapGet?_cons (e : String × Nat) (rest : List (String × Nat)) (k : String) :
    mapGet? (e :: rest) k = if e.1 == k then some e.2 else mapGet? rest k := by
  simp only [mapGet?]
  by_cases he : (e.1 == k) = true
  · rw [List.find?_cons_of_pos (p := fun e2 : String × Nat => e2.1 == k) _ he]
    simp [he]
  · have hf : (e.1 == k) = false := by simpa using he
    rw [List.find?_cons_of_neg (p := fun e2 : String × Nat => e2.1 == k) _ (by simp [hf])]
    simp [hf]

theorem mapSet_cons (e : String × Nat) (rest : List (String × Nat)) (k : String) (v : Nat) :
    mapSet (e :: rest) k v =
      if e.1 == k then (e.1, v) :: rest.map (fun e2 => if e2.1 == k then (e2.1, v) else e2)
      else e :: mapSet rest k v := by
  by_cases he : (e.1 == k) = true
  · have hany : ((e :: rest).any (fun e2 => e2.1 == k)) = true := by
      simp [List.any_cons, he]
    simp only [mapSet, hany, if_true, List.map_cons, he]
  · have hf : (e.1 == k) = false := by simpa using he
    by_cases hany : (rest.any (fun e2 => e2.1 == k)) = true
    · have hany2 : ((e :: rest).any (fun e2 => e2.1 == k)) = true := by
        simp [List.any_cons, hany]
      simp only [mapSet, hany2, hany, if_true, List.map_cons, hf, Bool.false_eq_true, if_false]
    · have hany0 : (rest.any (fun e2 => e2.1 == k)) = false := Bool.eq_false_iff.mpr hany
      have hany2 : ((e :: rest).any (fun e2 => e2.1 == k)) = false := by
        simp [List.any_cons, hf, hany0]
      simp only [mapSet, hany2, hany0, Bool.false_eq_true, if_false, List.cons_append, hf]

theorem mapGet?_replace_ne (k k' : String) (v : Nat) (hne : k' ≠ k) :
    ∀ m : List (String × Nat),
    mapGet? (m.map (fun e2 => if e2.1 == k then (e2.1, v) else e2)) k' = mapGet? m k' := by
  intro m
  induction m with
  | nil => rfl
  | cons e rest ih =>
    simp only [List.map_cons]
    by_cases he : (e.1 == k) = true
    · have hek : e.1 = k := eq_of_beq he
      have hk' : (e.1 == k') = false := by
        rw [hek]
        exact beq_eq_false_iff_ne.mpr (fun h => hne h.symm)
      rw [if_pos he, mapGet?_cons, mapGet?_cons]
      simp only [hk', Bool.false_eq_true, if_false, ih]
    · have hf : (e.1 == k) = false := by simpa using he
      rw [if_neg (by simp [hf]), mapGet?_cons, mapGet?_cons]
      by_cases h2 : (e.1 == k') = true
      · simp only [h2, if_true]
      · have h3 : (e.1 == k') = false := by simpa using h2
        simp only [h3, Bool.false_eq_true, if_false, ih]

theorem mapGet?_append_ne (k k' : String) (v : Nat) (hne : k' ≠ k) :
    ∀ m : List (String × Nat), mapGet? (m ++ [(k, v)]) k' = mapGet? m k' := by
  intro m
  induction m with
  | nil =>
    rw [List.nil_append, mapGet?_cons]
    have hk : (((k, v) : String × Nat).1 == k') = false :=
      beq_eq_false_iff_ne.mpr (fun h => hne h.symm)
    simp only [hk, Bool.false_eq_true, if_false]
  | cons e rest ih =>
    rw [List.cons_append, mapGet?_cons, mapGet?_cons]
    by_cases h2 : (e.1 == k') = true
    · simp only [h2, if_true]
    · have h3 : (e.1 == k') = false := by simpa using h2
      simp only [h3, Bool.false_eq_true, if_false, ih]

theorem mapGet?_replace_self (k : String) (v : Nat) :
    ∀ m : List (String × Nat), (m.any (fun e => e.1 == k)) = true →
    mapGet? (m.map (fun e2 => if e2.1 == k then (e2.1, v) else e2)) k = some v := by
  intro m
  induction m with
  | nil => intro h; simp at h
  | cons e rest ih =>
    intro h
    simp only [List.map_cons]
    by_cases he : (e.1 == k) = true
    · rw [if_pos he, mapGet?_cons]
      simp only [he, if_true]
    · have hf : (e.1 == k) = false := by simpa using he
      rw [if_neg (by simp [hf]), mapGet?_cons]
      have hr : (rest.any (fun e => e.1 == k)) = true := by
        simp only [List.any_cons, hf, Bool.false_or] at h
        exact h
      simp only [hf, Bool.false_eq_true, if_false]
      exact ih hr

theorem mapGet?_append_self (k : String) (v : Nat) :
    ∀ m : List (String × Nat), (m.any (fun e => e.1 == k)) = false →
    mapGet? (m ++ [(k, v)]) k = some v := by
  intro m
  induction m with
  | nil =>
    intro _
    rw [List.nil_append, mapGet?_cons]
    simp
  | cons e rest ih =>
    intro h
    simp only [List.any_cons, Bool.or_eq_false_iff] at h
    rw [List.cons_append, mapGet?_cons]
    simp only [h.1, Bool.false_eq_true, if_false]
    exact ih h.2

theorem mapGet?_mapSet_self (m : List (String × Nat)) (k : String) (v : Nat) :
    mapGet? (mapSet m k v) k = some v := by
  simp only [mapSet]
  by_cases hany : (m.any (fun e => e.1 == k)) = true
  · simp only [hany, if_true]
    exact mapGet?_replace_self k v m hany
  · have h0 : (m.any (fun e => e.1 == k)) = false := Bool.eq_false_iff.mpr hany
    simp only [h0, Bool.false_eq_true, if_false]
    exact mapGet?_append_self k v m h0

theorem mapGet?_mapSet_ne (m : List (String × Nat)) (k k' : String) (v : Nat)
    (hne : k' ≠ k) : mapGet? (mapSet m k v) k' = mapGet? m k' := by
  simp only [mapSet]
  by_cases hany : (m.any (fun e => e.1 == k)) = true
  · simp only [hany, if_true]
    exact mapGet?_replace_ne k k' v hne m
  · have h0 : (m.any (fun e => e.1 == k)) = false := Bool.eq_false_iff.mpr hany
    simp only [h0, Bool.false_eq_true, if_false]
    exact mapGet?_append_ne k k' v hne m

theorem foldl_mapSet_not_mem : ∀ (ks : List String) (i : Nat) (m : List (String × Nat))
    (k : String), k ∉ ks →
    mapGet? (ks.foldl (fun m2 k2 => mapSet m2 k2 i) m) k = mapGet? m k := by
  intro ks
  induction ks with
  | nil => intro i m k _; rfl
  | cons k2 rest ih =>
    intro i m k hk
    simp only [List.foldl_cons]
    rw [ih i _ k (fun h => hk (List.mem_cons_of_mem _ h))]
    exact mapGet?_mapSet_ne m k2 k i (fun he => hk (he ▸ List.mem_cons_self _ _))

theorem foldl_mapSet_mem : ∀ (ks : List String) (i : Nat) (m : List (String × Nat))
    (k : String), k ∈ ks →
    mapGet? (ks.foldl (fun m2 k2 => mapSet m2 k2 i) m) k = some i := by
  intro ks
  induction ks with
  | nil => intro i m k hk; exact absurd hk (List.not_mem_nil k)
  | cons k2 rest ih =>
    intro i m k hk
    simp only [List.foldl_cons]
    by_cases hr : k ∈ rest
    · exact ih i _ k hr
    · have hk2 : k = k2 := by
        rcases List.mem_cons.mp hk with h | h
        · exact h
        · exact absurd h hr
      subst hk2
      rw [foldl_mapSet_not_mem rest i _ k hr]
      exact mapGet?_mapSet_self m k i

theorem buildK2CAux_not_mem : ∀ (cs : List (List String)) (i : Nat)
    (m : List (String × Nat)) (k : String), (∀ c ∈ cs, k ∉ c) →
    mapGet? (buildK2CAux i cs m) k = mapGet? m k := by
  intro cs
  induction cs with
  | nil => intro i m k _; rfl
  | cons c rest ih =>
    intro i m k h
    simp only [buildK2CAux]
    rw [ih (i + 1) _ k (fun c2 hc2 => h c2 (List.mem_cons_of_mem _ hc2))]
    exact foldl_mapSet_not_mem c i m k (h c (List.mem_cons_self _ _))

theorem buildK2CAux_get : ∀ (cs : List (List String)) (i : Nat) (m : List (String × Nat)),
    cs.Pairwise (fun a b => ∀ k ∈ a, k ∉ b) →
    ∀ (j : Nat) (k : String), j < cs.length → k ∈ cs.getD j [] →
    mapGet? (buildK2CAux i cs m) k = some (i + j) := by
  intro cs
  induction cs with
  | nil => intro i m _ j k hj _; simp at hj
  | cons c rest ih =>
    intro i m hpw j k hj hk
    obtain ⟨h1, h2⟩ := List.pairwise_cons.mp hpw
    cases j with
    | zero =>
      simp only [buildK2CAux]
      rw [buildK2CAux_not_mem rest (i + 1) _ k (fun c2 hc2 => h1 c2 hc2 k hk)]
      rw [foldl_mapSet_mem c i m k hk, Nat.add_zero]
    | succ j2 =>
      simp only [buildK2CAux]
      rw [ih (i + 1) _ h2 j2 k (by simpa using hj) hk]
      congr 1
      omega

theorem getD_mem2 {α : Type} : ∀ {l : List α} {i : Nat} (d : α), i < l.length →
    l.getD i d ∈ l := by
  intro l
  induction l with
  | nil => intro i d h; simp at h
  | cons x rest ih =>
    intro i d h
    cases i with
    | zero => exact List.mem_cons_self _ _
    | succ j => exact List.mem_cons_of_mem _ (ih d (by simpa using h))

theorem getD_of_le {α : Type} : ∀ (l : List α) (d : α) (i : Nat), l.length ≤ i →
    l.getD i d = d := by
  intro l
  induction l with
  | nil => intro d i _; cases i <;> rfl
  | cons x rest ih =>
    intro d i h
    cases i with
    | zero => simp at h
    | succ j => exact ih d j (by simpa using h)

theorem getD_of_get? {α : Type} : ∀ {l : List α} {i : Nat} {x : α} (d : α),
    l.get? i = some x → l.getD i d = x := by
  intro l
  induction l with
  | nil => intro i x d h; simp at h
  | cons y rest ih =>
    intro i x d h
    cases i with
    | zero =>
      simp only [List.get?_cons_zero, Option.some.injEq] at h
      simpa using h
    | succ j => exact ih d h

theorem getD_replicate_false : ∀ (m i : Nat),
    ((List.replicate m false).getD i false) = false := by
  intro m
  induction m with
  | zero => intro i; cases i <;> rfl
  | succ n ih =>
    intro i
    cases i with
    | zero => rfl
    | succ j =>
      rw [List.replicate_succ, List.getD_cons_succ]
      exact ih j

theorem all_of_getD : ∀ l : List Bool, (∀ j, j < l.length → l.getD j false = true) →
    l.all (fun b => b) = true := by
  intro l
  induction l with
  | nil => intro _; rfl
  | cons b rest ih =>
    intro h
    simp only [List.all_cons, Bool.and_eq_true]
    constructor
    · exact h 0 (by simp)
    · exact ih (fun j hj => h (j + 1) (by simpa using hj))

theorem filterMap_const {α β : Type} (f : α → Option β) (v : β) :
    ∀ l : List α, (∀ k ∈ l, f k = some v) → l.filterMap f = l.map (fun _ => v) := by
  intro l
  induction l with
  | nil => intro _; rfl
  | cons x rest ih =>
    intro h
    rw [List.filterMap_cons, h x (List.mem_cons_self _ _), List.map_cons,
      ih (fun k hk => h k (List.mem_cons_of_mem _ hk))]

theorem dedupFirstGo_all_seen {α : Type} [BEq α] [LawfulBEq α] :
    ∀ (xs seen : List α), (∀ x ∈ xs, x ∈ seen) → dedupFirstGo seen xs = [] := by
  intro xs
  induction xs with
  | nil => intro seen _; rfl
  | cons x rest ih =>
    intro seen h
    have hc : seen.contains x = true :=
      List.elem_eq_true_of_mem (h x (List.mem_cons_self _ _))
    simp only [dedupFirstGo, hc, if_true]
    exact ih seen (fun y hy => h y (List.mem_cons_of_mem _ hy))

theorem dedupFirst_const {α : Type} [BEq α] [LawfulBEq α] (l : List α) (v : α)
    (hne : l ≠ []) (hall : ∀ x ∈ l, x = v) : dedupFirst l = [v] := by
  cases l with
  | nil => exact absurd rfl hne
  | cons x rest =>
    have hx : x = v := hall x (List.mem_cons_self _ _)
    subst hx
    show dedupFirstGo [] (x :: rest) = [x]
    have hc : (([] : List α).contains x) = false := rfl
    simp only [dedupFirstGo, hc, Bool.false_eq_true, if_false, List.nil_append]
    rw [dedupFirstGo_all_seen rest [x]
      (fun y hy => by rw [hall y (List.mem_cons_of_mem _ hy)]; exact List.mem_cons_self _ _)]

theorem dedupFirst_ne_nil {α : Type} [BEq α] {l : List α} (h : l ≠ []) :
    dedupFirst l ≠ [] := by
  cases l with
  | nil => exact absurd rfl h
  | cons x rest =>
    show dedupFirstGo [] (x :: rest) ≠ []
    have hc : (([] : List α).contains x) = false := rfl
    simp only [dedupFirstGo, hc, Bool.false_eq_true, if_false]
    exact List.cons_ne_nil _ _

theorem isEmpty_dedup_keyOf (c : List Placement) :
    (dedupFirst (c.map keyOf)).isEmpty = c.isEmpty := by
  cases c with
  | nil => rfl
  | cons x rest =>
    have h : dedupFirst ((x :: rest).map keyOf) ≠ [] :=
      dedupFirst_ne_nil (by simp)
    cases h2 : dedupFirst ((x :: rest).map keyOf) with
    | nil => exact absurd h2 h
    | cons y ys => rfl

theorem filter_map_comm (f : List Placement → List String)
    (hf : ∀ c, (f c).isEmpty = c.isEmpty) :
    ∀ l : List (List Placement),
    (l.map f).filter (fun x => !x.isEmpty) = (l.filter (fun x => !x.isEmpty)).map f := by
  intro l
  induction l with
  | nil => rfl
  | cons c rest ih =>
    simp only [List.map_cons, List.filter_cons, hf c]
    by_cases hc : c.isEmpty = true
    · simp only [hc, Bool.not_true, Bool.false_eq_true, if_false, ih]
    · have hc2 : c.isEmpty = false := by simpa using hc
      simp only [hc2, Bool.not_false, if_true, List.map_cons, ih]

theorem getD_map_dedup : ∀ (l : List (List Placement)) (i : Nat),
    ((l.map (fun c => dedupFirst (c.map keyOf))).getD i [])
      = dedupFirst (((l.getD i []).map keyOf)) := by
  intro l
  induction l with
  | nil => intro i; cases i <;> rfl
  | cons c rest ih =>
    intro i
    cases i with
    | zero => rfl
    | succ j => simpa using ih j

theorem map_keyOf_relabel (c : List Placement) :
    ((c.map (fun s => ({ name := s.name, program := s.program, locked := true } : Placement))).map
      keyOf) = c.map keyOf := by
  rw [List.map_map]
  rfl

theorem lspGo_run (cohorts : List (List String)) (k2c : List (String × Nat))
    (hmap : ∀ (j : Nat) (k : String), j < cohorts.length → k ∈ cohorts.getD j [] →
      mapGet? k2c k = some j)
    (hne : ∀ c ∈ cohorts, c ≠ []) :
    ∀ (gl : List Group) (idx : Nat) (satisfied : List Bool),
    satisfied.length = cohorts.length →
    (∀ j, j < cohorts.length → satisfied.getD j false = decide (j < idx)) →
    cohorts.length ≤ idx + gl.length →
    (∀ (j : Nat) (g : Group), gl.get? j = some g →
      ∀ k, k ∈ (g.students.filter (fun s => s.locked)).map keyOf
        ↔ k ∈ cohorts.getD (idx + j) []) →
    lspGo cohorts k2c gl satisfied = true := by
  intro gl
  induction gl with
  | nil =>
    intro idx satisfied hlen hpat hcnt _
    simp only [lspGo]
    apply all_of_getD
    intro j hj
    rw [hlen] at hj
    rw [hpat j hj]
    simp only [decide_eq_true_eq, List.length_nil, Nat.add_zero] at *
    omega
  | cons g rest ih =>
    intro idx satisfied hlen hpat hcnt hkeys
    have hkg : ∀ k, k ∈ (g.students.filter (fun s => s.locked)).map keyOf
        ↔ k ∈ cohorts.getD idx [] := by
      intro k
      have h0 := hkeys 0 g rfl k
      rwa [Nat.add_zero] at h0
    have hkeys2 : ∀ (j : Nat) (g2 : Group), rest.get? j = some g2 →
        ∀ k, k ∈ (g2.students.filter (fun s => s.locked)).map keyOf
          ↔ k ∈ cohorts.getD (idx + 1 + j) [] := by
      intro j g2 hg2 k
      have h0 := hkeys (j + 1) g2 hg2 k
      rwa [show idx + (j + 1) = idx + 1 + j from by omega] at h0
    by_cases hA : idx < cohorts.length
    · have hcne : cohorts.getD idx [] ≠ [] := hne _ (getD_mem2 [] hA)
      obtain ⟨k0, hk0⟩ := List.exists_mem_of_ne_nil _ hcne
      have hlk0 : k0 ∈ (g.students.filter (fun s => s.locked)).map keyOf := (hkg k0).mpr hk0
      have hlkne : (g.students.filter (fun s => s.locked)).map keyOf ≠ [] := by
        intro h0
        rw [h0] at hlk0
        exact absurd hlk0 (List.not_mem_nil k0)
      have hfm : ((g.students.filter (fun s => s.locked)).map keyOf).filterMap
          (fun k => mapGet? k2c k)
          = ((g.students.filter (fun s => s.locked)).map keyOf).map (fun _ => idx) :=
        filterMap_const _ _ _ (fun k hk => hmap idx k hA ((hkg k).mp hk))
      have hcids : dedupFirst (((g.students.filter (fun s => s.locked)).map keyOf).filterMap
          (fun k => mapGet? k2c k)) = [idx] := by
        rw [hfm]
        apply dedupFirst_const
        · intro h0
          exact hlkne (List.map_eq_nil_iff.mp h0)
        · intro x hx
          obtain ⟨y, _, hyx⟩ := List.mem_map.mp hx
          exact hyx.symm
      have hall : ((cohorts.getD idx []).all
          (fun k => ((g.students.filter (fun s => s.locked)).map keyOf).contains k)) = true :=
        List.all_eq_true.mpr (fun k hk => List.elem_eq_true_of_mem ((hkg k).mpr hk))
      have hsat : satisfied.getD idx false = false := by
        rw [hpat idx hA]
        simp
      simp only [lspGo, hcids, List.length_cons, List.length_nil, lt_self_iff_false,
        Bool.false_eq_true, if_false, hall, if_true, hsat]
      apply ih (idx + 1) (satisfied.set idx true)
      · rw [List.length_set, hlen]
      · intro j hj
        by_cases hji : j = idx
        · subst hji
          rw [getD_set_self2 (by rw [hlen]; exact hA)]
          simp
        · rw [getD_set_ne2 (fun h2 => hji h2.symm), hpat j hj]
          exact decide_eq_decide.mpr (by omega)
      · simp only [List.length_cons] at hcnt
        omega
      · exact hkeys2
    · have hempty : (g.students.filter (fun s => s.locked)).map keyOf = [] := by
        rw [List.eq_nil_iff_forall_not_mem]
        intro k hk
        have h2 := (hkg k).mp hk
        rw [getD_of_le _ _ _ (by omega)] at h2
        exact absurd h2 (List.not_mem_nil k)
      have hred : lspGo cohorts k2c (g :: rest) satisfied
          = lspGo cohorts k2c rest satisfied := by
        simp only [lspGo, hempty]
        rfl
      rw [hred]
      apply ih (idx + 1) satisfied hlen
      · intro j hj
        rw [hpat j hj]
        exact decide_eq_decide.mpr (by omega)
      · simp only [List.length_cons] at hcnt
        omega
      · exact hkeys2

theorem lsp_of_core (prev : List Group) (programs : List String) (gs target : Nat)
    (enough : List String) (pool : List Placement) (rng0 : Rng)
    (hdisj : (prev.map (fun g => (g.students.filter (fun s => s.locked)).map keyOf)).Pairwise
      (fun a b => ∀ k ∈ a, k ∉ b))
    (hk : ((prev.map (fun g => g.students.filter (fun s => s.locked))).filter
        (fun l => !l.isEmpty)).length ≤ target) :
    lockedStayInPlace prev (withWarnings programs (reshuffleCore gs target enough
      ((prev.map (fun g => g.students.filter (fun s => s.locked))).filter
        (fun l => !l.isEmpty)) pool rng0)) = true := by
  have hcomm : (prev.map (fun g => dedupFirst ((g.students.filter
        (fun s => s.locked)).map keyOf))).filter (fun ks => !ks.isEmpty)
      = ((prev.map (fun g => g.students.filter (fun s => s.locked))).filter
          (fun l => !l.isEmpty)).map (fun c => dedupFirst (c.map keyOf)) := by
    rw [show (prev.map (fun g => dedupFirst ((g.students.filter (fun s => s.locked)).map keyOf)))
        = ((prev.map (fun g => g.students.filter (fun s => s.locked))).map
            (fun c => dedupFirst (c.map keyOf))) from by rw [List.map_map]; rfl]
    exact filter_map_comm _ isEmpty_dedup_keyOf _
  have hpw : ((((prev.map (fun g => g.students.filter (fun s => s.locked))).filter
        (fun l => !l.isEmpty)).map (fun c => dedupFirst (c.map keyOf)))).Pairwise
      (fun a b => ∀ k ∈ a, k ∉ b) := by
    rw [← hcomm]
    refine List.Pairwise.sublist (List.filter_sublist _) ?_
    rw [List.pairwise_map]
    rw [List.pairwise_map] at hdisj
    exact hdisj.imp
      (fun h k hk2 hk3 => h k ((dedupFirst_mem _ k).mp hk2) ((dedupFirst_mem _ k).mp hk3))
  have hnl : (withWarnings programs (reshuffleCore gs target enough
      ((prev.map (fun g => g.students.filter (fun s => s.locked))).filter
        (fun l => !l.isEmpty)) pool rng0)).length = target := by
    have h2 := withWarnings_students programs (reshuffleCore gs target enough
      ((prev.map (fun g => g.students.filter (fun s => s.locked))).filter
        (fun l => !l.isEmpty)) pool rng0)
    have h3 := congrArg List.length h2
    rw [List.length_map] at h3
    rw [h3]
    exact reshuffleCore_length _ _ _ _ _ _ hk
  simp only [lockedStayInPlace]
  rw [hcomm]
  by_cases hemp : ((((prev.map (fun g => g.students.filter (fun s => s.locked))).filter
      (fun l => !l.isEmpty)).map (fun c => dedupFirst (c.map keyOf)))).isEmpty = true
  · rw [if_pos hemp]
  · rw [if_neg hemp]
    refine lspGo_run _ _ ?_ ?_ _ 0 _ ?_ ?_ ?_ ?_
    · intro j k hj hk2
      have h0 := buildK2CAux_get _ 0 [] hpw j k hj hk2
      rwa [Nat.zero_add] at h0
    · intro c hc
      obtain ⟨c2, hc2, rfl⟩ := List.mem_map.mp hc
      have hne2 := (List.mem_filter.mp hc2).2
      apply dedupFirst_ne_nil
      intro h0
      rw [List.map_eq_nil_iff.mp h0] at hne2
      simp at hne2
    · rw [List.length_replicate]
    · intro j _
      rw [getD_replicate_false]
      simp
    · rw [Nat.zero_add, hnl, List.length_map]
      exact hk
    · intro j g hg k
      rw [Nat.zero_add]
      have hst : (reshuffleCore gs target enough
          ((prev.map (fun g2 => g2.students.filter (fun s => s.locked))).filter
            (fun l => !l.isEmpty)) pool rng0).get? j = some g.students := by
        have h2 := withWarnings_students programs (reshuffleCore gs target enough
          ((prev.map (fun g2 => g2.students.filter (fun s => s.locked))).filter
            (fun l => !l.isEmpty)) pool rng0)
        rw [← h2, List.get?_map, hg]
        rfl
      have hgd := getD_of_get? ([] : List Placement) hst
      have hfl := reshuffleCore_locked gs target enough
        ((prev.map (fun g2 => g2.students.filter (fun s => s.locked))).filter
          (fun l => !l.isEmpty)) pool rng0 j
      rw [hgd] at hfl
      rw [hfl, map_keyOf_relabel, getD_map_dedup]
      exact (dedupFirst_mem _ k).symm

/-- C4 (amended): when the pinned members of different groups of the prior
partition carry pairwise distinct `(name, program)` identities, every
successful repartition passes the `lockedStayInPlace` cohort-integrity
check. -/
theorem c4_cohort_integrity_amended (prev : List Group) (programs : List String)
    (gs : Nat) (rng0 : Rng) (next : List Group)
    (hdisj : (prev.map (fun g => (g.students.filter (fun s => s.locked)).map keyOf)).Pairwise
      (fun a b => ∀ k ∈ a, k ∉ b))
    (hok : reshuffleRespectingLocksToGroupSize prev programs gs rng0 = Except.ok next) :
    lockedStayInPlace prev next = true := by
  simp only [reshuffleRespectingLocksToGroupSize] at hok
  split at hok
  · exact Except.noConfusion hok
  · rename_i hcond
    injection hok with hok
    subst hok
    exact lsp_of_core prev programs gs _ _ _ rng0 hdisj (by omega)

/-- Witness for `c4_cohort_integrity_amended`: one group with a single
pinned student, repartitioned at capacity 1. -/
theorem c4_cohort_integrity_amended_witness : lockedStayInPlace w4Prev w4Out = true :=
  c4_cohort_integrity_amended w4Prev ["X"] 1 (Rng.system sysZero 0) w4Out (by decide) rfl

end CSG
